import Mathlib

/-!
Verification of the match scheduler and the Prim MST network builder
(`src/schedule.py`).  The Python functions are shallowly embedded as
executable Lean definitions: dictionaries become association lists,
`heapq` becomes a multiset of entries with a deterministic
minimum-removal (faithful because Python's heap always pops a minimal
tuple and equal tuples are indistinguishable), and Python `float`
weights become exact rationals.
-/

namespace SchedPrim

/-- `Match = Tuple[int, int]` from the source. -/
abbrev MatchT := Nat × Nat

/-- The `Stadium` class: an id and a display name. -/
structure Stadium where
  id : String
  name : String
deriving DecidableEq

/-- `DaySchedule = Dict[str, Match]`: a Python dict modelled as an
insertion-ordered association list with unique keys maintained by
`dictInsert`. -/
abbrev DaySchedule := List (String × MatchT)

/-- `Schedule = List[DaySchedule]`. -/
abbrev ScheduleT := List DaySchedule

/-- Helper for `k_permutations`: all ways to pick one element of a list
together with the remaining elements (in order).  `picks [a,b,c] =
[(a,[b,c]), (b,[a,c]), (c,[a,b])]`. -/
def picks {α : Type} : List α → List (α × List α)
  | [] => []
  | x :: xs => (x, xs) :: (picks xs).map (fun p => (p.1, x :: p.2))

/-- `k_permutations(arr, k)`: all permutations of `arr` taken `k` at a
time, in the order `itertools.permutations` produces them
(lexicographic by position: element `arr[i]` first, followed by the
(k-1)-permutations of the remaining elements). -/
def k_permutations {α : Type} : List α → Nat → List (List α)
  | _, 0 => [[]]
  | arr, k + 1 =>
    (picks arr).flatMap (fun p => (k_permutations p.2 k).map (fun rest => p.1 :: rest))

/-- Python dict assignment `d[k] = v`: updates the first occurrence of
the key in place, otherwise appends. -/
def dictInsert : DaySchedule → String → MatchT → DaySchedule
  | [], k, v => [(k, v)]
  | (k0, v0) :: rest, k, v =>
    if k0 = k then (k0, v) :: rest else (k0, v0) :: dictInsert rest k v

/-- The dict-building loop of `generate_assignments`:
`for i, match in enumerate(block): day_sched[perm[i].id] = match`. -/
def buildDay (block : List MatchT) (perm : List Stadium) : DaySchedule :=
  block.enum.foldl (fun d p => dictInsert d (perm.getD p.1 ⟨"", ""⟩).id p.2) []

/-- `generate_assignments(block, stadiums)`. -/
def generate_assignments (block : List MatchT) (stadiums : List Stadium) : List DaySchedule :=
  if block.length > stadiums.length then []
  else (k_permutations stadiums block.length).map (fun perm => buildDay block perm)

/-- The update `if best is None or len(candidate) < len(best): best = candidate`. -/
def updateBest (best : Option ScheduleT) (candidate : ScheduleT) : Option ScheduleT :=
  match best with
  | none => some candidate
  | some b => if candidate.length < b.length then some candidate else some b

/-- One iteration of the `for k in range(1, m + 1)` loop of
`get_optimizing_solution`. -/
def gosStep (i : Nat) (dp : List (Option ScheduleT)) (ms : List MatchT)
    (stadiums : List Stadium) (best : Option ScheduleT) (k : Nat) : Option ScheduleT :=
  if i + k > ms.length then best
  else
    let block := (ms.drop i).take k
    let day_assignments := generate_assignments block stadiums
    if day_assignments = [] then best
    else
      match dp.getD (i + k) none with
      | none => best
      | some rest => day_assignments.foldl (fun b a => updateBest b (a :: rest)) best

/-- `get_optimizing_solution(i, dp, matches, stadiums)`.  The Python
`break` on `i + k > n` is modelled by skipping those `k`: the condition
is monotone in `k`, so every later iteration would also be skipped. -/
def get_optimizing_solution (i : Nat) (dp : List (Option ScheduleT)) (ms : List MatchT)
    (stadiums : List Stadium) : Option ScheduleT :=
  (List.range' 1 stadiums.length).foldl (gosStep i dp ms stadiums) none

/-- The stadium list built by `schedule_matches`:
`[Stadium(f"s{i+1}", f"Stadium {i+1}") for i in range(num_stadiums)]`. -/
def mkStadiums (num_stadiums : Nat) : List Stadium :=
  (List.range num_stadiums).map
    (fun i => { id := "s" ++ Nat.repr (i + 1), name := "Stadium " ++ Nat.repr (i + 1) })

/-- `schedule_matches(matches, num_stadiums)`: the table `dp` is a list
of length `n+1` with `dp[n] = []`, filled for `i = n-1, …, 0`. -/
def schedule_matches (ms : List MatchT) (num_stadiums : Nat) : Option ScheduleT :=
  let n := ms.length
  let stadiums := mkStadiums num_stadiums
  let dp0 : List (Option ScheduleT) := (List.range (n + 1)).map
    (fun j => if j = n then some [] else none)
  let dpF := (List.range n).reverse.foldl
    (fun dp i => dp.set i (get_optimizing_solution i dp ms stadiums)) dp0
  dpF.getD 0 none

example : schedule_matches [(1, 2), (3, 4), (5, 6)] 1 =
    some [[("s1", (1, 2))], [("s1", (3, 4))], [("s1", (5, 6))]] := by decide

example : (schedule_matches [(1, 2), (3, 4), (5, 6)] 3).map List.length = some 1 := by decide

example : (schedule_matches [(0, 1), (0, 2), (0, 3), (1, 2), (1, 3), (2, 3)] 2).map List.length =
    some 3 := by decide

example : schedule_matches [] 0 = some [] := by decide

example : schedule_matches [(1, 2)] 0 = none := by decide

example : (generate_assignments [(1, 2), (3, 4)] (mkStadiums 3)).length = 6 := by decide

/-! ### Prim's algorithm (`prim_mst`)

The weight table `Dict[Tuple[str, str], float]` becomes an association
list with first-match lookup; weights are exact rationals.  The
`heapq` priority queue becomes a list managed as a multiset: pushes
append, and `popMin` removes the least entry in the lexicographic
tuple order Python uses to compare `(cost, from, to)` triples.  This
is observationally identical to the binary heap: `heappop` always
returns a minimal tuple, and entries that compare equal are equal as
values. -/

/-- A weight table: the Python `distances` dict. -/
abbrev WTable := List ((String × String) × ℚ)

/-- Dict lookup `distances[k]` (first matching key). -/
def wlookup : WTable → (String × String) → Option ℚ
  | [], _ => none
  | (k0, w) :: rest, k => if k0 = k then some w else wlookup rest k

/-- Dict membership `k in distances`. -/
def hasKey (t : WTable) (k : String × String) : Bool :=
  (wlookup t k).isSome

/-- A heap entry `(cost, from, to)`. -/
abbrev Entry := ℚ × String × String

/-- Python's lexicographic comparison on `(cost, from, to)` tuples. -/
def entryLt (a b : Entry) : Bool :=
  decide (a.1 < b.1) ||
    (a.1 == b.1 && (decide (a.2.1 < b.2.1) ||
      (a.2.1 == b.2.1 && decide (a.2.2 < b.2.2))))

/-- The least entry of a heap (leftmost among equals). -/
def minEntry : List Entry → Option Entry
  | [] => none
  | e :: rest =>
    match minEntry rest with
    | none => some e
    | some m => if entryLt m e then some m else some e

/-- Remove the first occurrence of an entry. -/
def removeFirst : List Entry → Entry → List Entry
  | [], _ => []
  | x :: xs, e => if x = e then xs else x :: removeFirst xs e

/-- `heapq.heappop`: remove and return a minimal entry. -/
def popMin (h : List Entry) : Option (Entry × List Entry) :=
  match minEntry h with
  | none => none
  | some m => some (m, removeFirst h m)

/-- One iteration of the neighbor loop of `prim_mst`: if `nb` is not
visited, push `(distances[(dst, nb)], dst, nb)` if `(dst, nb)` is a
key, else `(distances[(nb, dst)], dst, nb)` if `(nb, dst)` is a key. -/
def pushStep (distances : WTable) (visited : List String) (dst : String)
    (h : List Entry) (nb : String) : List Entry :=
  if !visited.contains nb && hasKey distances (dst, nb) then
    h ++ [((wlookup distances (dst, nb)).getD 0, dst, nb)]
  else if !visited.contains nb && hasKey distances (nb, dst) then
    h ++ [((wlookup distances (nb, dst)).getD 0, dst, nb)]
  else h

/-- The push loop of `prim_mst` over all stadiums. -/
def pushNeighbors (stadiums : List String) (distances : WTable) (visited : List String)
    (dst : String) (heap : List Entry) : List Entry :=
  stadiums.foldl (pushStep distances visited dst) heap

/-- Number of stadium occurrences not yet visited (loop measure). -/
def unvisCount (stadiums visited : List String) : Nat :=
  (stadiums.filter (fun s => !visited.contains s)).length

/-- Heap entries whose destination is not a stadium (loop measure:
such entries can only come from the initial heap, never from pushes). -/
def junkCount (stadiums : List String) (heap : List Entry) : Nat :=
  (heap.filter (fun e => !stadiums.contains e.2.2)).length

/-- Strictly decreasing measure of the `prim_mst` loop state. -/
def primMeasure (stadiums : List String) (visited : List String) (heap : List Entry) : Nat :=
  (unvisCount stadiums visited + junkCount stadiums heap) * (stadiums.length + 1) + heap.length

/-- The `while min_heap and len(mst) < num_stadiums - 1` loop of
`prim_mst`, with an explicit fuel so that the recursion is structural
(and hence evaluable); `none` means the fuel ran out, which is shown
never to happen for the fuel `prim_mst` supplies, because
`primMeasure` strictly decreases at every iteration. -/
def primLoopF (stadiums : List String) (distances : WTable) :
    Nat → List String → List Entry → List (String × String) → ℚ →
    Option (ℚ × List (String × String))
  | 0, _, _, _, _ => none
  | fuel + 1, visited, heap, mst, total_cost =>
    if stadiums.length - 1 ≤ mst.length then some (total_cost, mst)
    else
      match popMin heap with
      | none => some (total_cost, mst)
      | some (e, rest) =>
        if visited.contains e.2.2 then
          primLoopF stadiums distances fuel visited rest mst total_cost
        else
          primLoopF stadiums distances fuel (e.2.2 :: visited)
            (pushNeighbors stadiums distances (e.2.2 :: visited) e.2.2 rest)
            (if e.2.1 = e.2.2 then mst else mst ++ [(e.2.1, e.2.2)])
            (total_cost + e.1)

/-- Fuel that strictly dominates the initial measure of `prim_mst`. -/
def primFuel (stadiums : List String) : Nat :=
  (stadiums.length + 1) * (stadiums.length + 1) + 2

/-- `prim_mst(stadiums, distances)`.  On an empty stadium list the
Python code raises `IndexError` at `stadiums[0]`; this is modelled by
`none`.  Otherwise the heap is seeded with the zero-cost self-loop
`(0, stadiums[0], stadiums[0])` and the loop runs to completion (the
fuel is sufficient; see `primLoopF_isSome`). -/
def prim_mst (stadiums : List String) (distances : WTable) :
    Option (ℚ × List (String × String)) :=
  match stadiums with
  | [] => none
  | s0 :: _ => primLoopF stadiums distances (primFuel stadiums) [] [(0, s0, s0)] [] 0

/-- The fixed distance table of `build_stadium_network`. -/
def referenceDistances : WTable :=
  [(("s1", "s2"), 5), (("s1", "s3"), 10), (("s1", "s4"), 15), (("s1", "s5"), 20),
   (("s2", "s3"), 25), (("s2", "s4"), 20), (("s2", "s5"), 15),
   (("s3", "s4"), 10), (("s3", "s5"), 5), (("s4", "s5"), 10)]

/-- `build_stadium_network` computes `prim_mst` on its argument and the
fixed table (the printing is outside the model). -/
def build_stadium_network (stadiums : List String) : Option (ℚ × List (String × String)) :=
  prim_mst stadiums referenceDistances

set_option maxHeartbeats 2000000 in
example : prim_mst ["s1", "s2", "s3", "s4", "s5"] referenceDistances =
    some (30, [("s1", "s2"), ("s1", "s3"), ("s3", "s5"), ("s3", "s4")]) := by
  with_unfolding_all decide

example : prim_mst ["a", "a"] [] = some (0, []) := by with_unfolding_all decide

example : prim_mst [] referenceDistances = none := rfl

example : prim_mst ["a", "b", "c"] [(("a", "b"), 7)] = some (7, [("a", "b")]) := by
  with_unfolding_all decide

/-! ### Specification-side definitions -/

/-- The stadium id strings `s1 … sv` used by `schedule_matches`. -/
def stadiumIds (v : Nat) : List String :=
  (mkStadiums v).map Stadium.id

/-- A well-formed competitor schedule, per the spec's
one-venue-one-match-per-day rule: every input match appears exactly
once across all days (as a multiset), and within a day the venues are
distinct and drawn from the given venue ids. -/
def ValidSchedule (ms : List MatchT) (ids : List String) (alt : ScheduleT) : Prop :=
  (alt.flatMap (fun d => d.map Prod.snd)).Perm ms ∧
    ∀ d ∈ alt, (d.map Prod.fst).Nodup ∧ ∀ p ∈ d, p.1 ∈ ids

/-- The minimal number of days for `m` matches and `v` venues:
`⌈m / v⌉` as natural division. -/
def minDays (m v : Nat) : Nat := (m + v - 1) / v

/-- Specification of the dp table of `schedule_matches`: `dpVal i` is
the value `dp[i]` holds once filled (the fold in `schedule_matches` is
proved to produce exactly this table). -/
def dpVal (ms : List MatchT) (stadiums : List Stadium) (i : Nat) : Option ScheduleT :=
  if ms.length ≤ i then (if i = ms.length then some [] else none)
  else
    get_optimizing_solution i
      ((List.range (ms.length + 1)).map
        (fun j => if i < j then dpVal ms stadiums j else none))
      ms stadiums
  termination_by ms.length - i
  decreasing_by omega

/-- The dp list `get_optimizing_solution` reads while computing
`dp[i]`: entries above `i` already hold their final value `dpVal`,
entries up to `i` are still `None` (and are never read). -/
def dpTable (ms : List MatchT) (st : List Stadium) (i : Nat) :
    List (Option ScheduleT) :=
  (List.range (ms.length + 1)).map (fun j => if i < j then dpVal ms st j else none)

/-- The dp list of `schedule_matches` after the descending fill loop
has processed the rows down to (and including) row `j`. -/
def dpFilled (ms : List MatchT) (st : List Stadium) (j : Nat) :
    List (Option ScheduleT) :=
  (List.range (ms.length + 1)).map
    (fun idx => if j ≤ idx then dpVal ms st idx else none)

/-- A candidate considered by the `for k in range(1, m + 1)` loop of
`get_optimizing_solution`: a feasible day assignment for the block of
`k` matches starting at `i`, prepended to the feasible continuation
`dp[i + k]`. -/
def GosCand (i : Nat) (dp : List (Option ScheduleT)) (ms : List MatchT)
    (stadiums : List Stadium) (k : Nat) (s : ScheduleT) : Prop :=
  i + k ≤ ms.length ∧
    ∃ a ∈ generate_assignments ((ms.drop i).take k) stadiums,
      ∃ r, dp.getD (i + k) none = some r ∧ s = a :: r

/-- The weight the table gives an unordered pair, looked up in both
orientations like `prim_mst` does. -/
def edgeWeight (t : WTable) (a b : String) : Option ℚ :=
  match wlookup t (a, b) with
  | some w => some w
  | none => wlookup t (b, a)

/-- The weight of one competitor edge. -/
def pairWeight (t : WTable) (e : String × String) : ℚ :=
  (edgeWeight t e.1 e.2).getD 0

/-- Total weight of a list of edges. -/
def edgesWeight (t : WTable) (E : List (String × String)) : ℚ :=
  (E.map (pairWeight t)).sum

/-- The unordered pair `{a, b}` is a key of the table. -/
def adjKey (t : WTable) (a b : String) : Prop :=
  hasKey t (a, b) = true ∨ hasKey t (b, a) = true

/-- Reachability in the graph `prim_mst` explores: steps go to
vertices of the stadium list along unordered table keys. -/
inductive Reach (t : WTable) (V : List String) : String → String → Prop where
  | refl (x : String) : Reach t V x x
  | tail {x y z : String} : Reach t V x y → z ∈ V → adjKey t y z → Reach t V x z

/-- Reachability along an explicit edge list (edges usable in either
orientation). -/
inductive ReachE (E : List (String × String)) : String → String → Prop where
  | refl (x : String) : ReachE E x x
  | tail {x y z : String} : ReachE E x y → ((y, z) ∈ E ∨ (z, y) ∈ E) → ReachE E x z

/-- Wellformedness of the weight table as an undirected graph: at most
one orientation of each unordered pair is present. -/
def OneOrientation (t : WTable) : Prop :=
  ∀ a b : String, a ≠ b → hasKey t (a, b) = true → hasKey t (b, a) = false

/-- All weights of the table are non-negative. -/
def NonnegWeights (t : WTable) : Prop :=
  ∀ p ∈ t, (0 : ℚ) ≤ p.2

/-- A connected spanning subgraph of the graph on vertex list `V` with
the table's unordered keys as available edges. -/
def SpanningSub (t : WTable) (V : List String) (E : List (String × String)) : Prop :=
  (∀ e ∈ E, e.1 ∈ V ∧ e.2 ∈ V ∧ adjKey t e.1 e.2) ∧
    ∀ u ∈ V, ∀ v ∈ V, ReachE E u v

/-- A spanning tree: a connected spanning subgraph with
`|V| - 1` edges. -/
def IsSpanningTree (t : WTable) (V : List String) (E : List (String × String)) : Prop :=
  SpanningSub t V E ∧ E.length + 1 = V.length

/-- A vertex sequence is a walk along the edge list `E`. -/
def chainE (E : List (String × String)) (l : List String) : Prop :=
  l.Chain' (fun a b => (a, b) ∈ E ∨ (b, a) ∈ E)

/-- Remove the first occurrence of an edge from an edge list. -/
def erasePair : List (String × String) → (String × String) → List (String × String)
  | [], _ => []
  | x :: xs, e => if x = e then xs else x :: erasePair xs e

/-- The invariant of the `prim_mst` loop, relating the visited set, the
heap, the accumulated tree and the accumulated cost.  `promising` is the
cut-property invariant: the accumulated tree extends to a connected
spanning subgraph at least as cheap as any given one. -/
structure PrimInv (st : List String) (d : WTable) (s0 : String) (visited : List String)
    (heap : List Entry) (mst : List (String × String)) (total_cost : ℚ) : Prop where
  vis_ne : visited ≠ []
  vis_sub : ∀ v ∈ visited, v ∈ st
  vis_nodup : visited.Nodup
  s0_mem : s0 ∈ visited
  vis_reach : ∀ v ∈ visited, Reach d st s0 v
  heap_inv : ∀ e ∈ heap, e.2.1 ∈ visited ∧ e.2.2 ∈ st ∧ edgeWeight d e.2.1 e.2.2 = some e.1
  complete : ∀ u ∈ visited, ∀ z ∈ st, z ∉ visited → adjKey d u z →
    ∃ c, (c, u, z) ∈ heap
  mst_count : mst.length + 1 = visited.length
  mst_ends : ∀ e ∈ mst, e.1 ∈ visited ∧ e.2 ∈ visited ∧ adjKey d e.1 e.2
  vis_cover : ∀ v ∈ visited, v = s0 ∨ ∃ e ∈ mst, v = e.1 ∨ v = e.2
  cost_eq : total_cost = edgesWeight d mst
  promising : OneOrientation d → ∀ E, SpanningSub d st E →
    ∃ T extra, SpanningSub d st T ∧ T.Perm (mst ++ extra) ∧
      edgesWeight d T ≤ edgesWeight d E

/-! ## Theorems

### The heap model -/

theorem entryLt_irrefl (a : Entry) : entryLt a a = false := by
  simp [entryLt]

theorem entryLt_iff (a b : Entry) : entryLt a b = true ↔
    (a.1 < b.1 ∨ (a.1 = b.1 ∧ (a.2.1 < b.2.1 ∨ (a.2.1 = b.2.1 ∧ a.2.2 < b.2.2)))) := by
  simp [entryLt]

theorem entryLt_trans {a b c : Entry} (h1 : entryLt a b = true) (h2 : entryLt b c = true) :
    entryLt a c = true := by
  rw [entryLt_iff] at h1 h2 ⊢
  rcases h1 with h1 | ⟨e1, h1⟩ <;> rcases h2 with h2 | ⟨e2, h2⟩
  · exact Or.inl (lt_trans h1 h2)
  · exact Or.inl (lt_of_lt_of_le h1 (le_of_eq e2))
  · exact Or.inl (lt_of_le_of_lt (le_of_eq e1) h2)
  · refine Or.inr ⟨e1.trans e2, ?_⟩
    rcases h1 with h1 | ⟨f1, h1⟩ <;> rcases h2 with h2 | ⟨f2, h2⟩
    · exact Or.inl (lt_trans h1 h2)
    · exact Or.inl (lt_of_lt_of_le h1 (le_of_eq f2))
    · exact Or.inl (lt_of_le_of_lt (le_of_eq f1) h2)
    · exact Or.inr ⟨f1.trans f2, lt_trans h1 h2⟩

theorem entryLt_asymm {a b : Entry} (h : entryLt a b = true) : entryLt b a = false := by
  rw [Bool.eq_false_iff]
  intro hba
  have := entryLt_trans h hba
  rw [entryLt_iff] at this
  rcases this with h1 | ⟨_, h2 | ⟨_, h3⟩⟩
  · exact lt_irrefl _ h1
  · exact lt_irrefl _ h2
  · exact lt_irrefl _ h3

theorem entryLt_antisymm {a b : Entry} (h1 : entryLt a b = false)
    (h2 : entryLt b a = false) : a = b := by
  rw [Bool.eq_false_iff, Ne, entryLt_iff] at h1 h2
  rcases lt_trichotomy a.1 b.1 with hq | hq | hq
  · exact absurd (Or.inl hq) h1
  · rcases lt_trichotomy a.2.1 b.2.1 with hs | hs | hs
    · exact absurd (Or.inr ⟨hq, Or.inl hs⟩) h1
    · rcases lt_trichotomy a.2.2 b.2.2 with ht | ht | ht
      · exact absurd (Or.inr ⟨hq, Or.inr ⟨hs, ht⟩⟩) h1
      · obtain ⟨aq, as1, as2⟩ := a
        obtain ⟨bq, bs1, bs2⟩ := b
        simp only at hq hs ht
        rw [hq, hs, ht]
      · exact absurd (Or.inr ⟨hq.symm, Or.inr ⟨hs.symm, ht⟩⟩) h2
    · exact absurd (Or.inr ⟨hq.symm, Or.inl hs⟩) h2
  · exact absurd (Or.inl hq) h2

theorem entryLt_neg_trans {a b c : Entry} (h1 : entryLt a b = false)
    (h2 : entryLt b c = false) : entryLt a c = false := by
  by_contra h
  rw [Bool.not_eq_false] at h
  cases hba : entryLt b a with
  | true =>
    have := entryLt_trans hba h
    rw [h2] at this
    cases this
  | false =>
    have hab : a = b := entryLt_antisymm h1 hba
    subst hab
    rw [h2] at h
    cases h

theorem minEntry_none_iff (l : List Entry) : minEntry l = none ↔ l = [] := by
  cases l with
  | nil => simp [minEntry]
  | cons e rest =>
    constructor
    · intro h
      have hs : (minEntry (e :: rest)).isSome = true := by
        cases hmr : minEntry rest with
        | none => simp [minEntry, hmr]
        | some m0 =>
          simp only [minEntry, hmr]
          split <;> rfl
      rw [h] at hs
      cases hs
    · intro h
      exact List.noConfusion h

theorem minEntry_mem : ∀ (l : List Entry) (m : Entry), minEntry l = some m → m ∈ l := by
  intro l
  induction l with
  | nil => intro m hm; simp [minEntry] at hm
  | cons x xs ih =>
    intro m hm
    simp only [minEntry] at hm
    cases hmx : minEntry xs with
    | none => rw [hmx] at hm; simp only [Option.some.injEq] at hm; simp [hm]
    | some m0 =>
      rw [hmx] at hm
      by_cases hlt : entryLt m0 x = true
      · simp only [hlt, if_pos] at hm
        simp only [Option.some.injEq] at hm
        exact List.mem_cons_of_mem x (hm ▸ ih m0 hmx)
      · simp only [Bool.not_eq_true] at hlt
        simp only [hlt, Bool.false_eq_true, if_false, Option.some.injEq] at hm
        simp [hm]

theorem minEntry_min : ∀ (l : List Entry) (m : Entry), minEntry l = some m →
    ∀ x ∈ l, entryLt x m = false := by
  intro l
  induction l with
  | nil => intro m hm; simp [minEntry] at hm
  | cons e rest ih =>
    intro m hm x hx
    simp only [minEntry] at hm
    cases hmr : minEntry rest with
    | none =>
      rw [hmr] at hm
      simp only [Option.some.injEq] at hm
      subst hm
      rw [(minEntry_none_iff rest).mp hmr] at hx
      simp only [List.mem_singleton] at hx
      subst hx
      exact entryLt_irrefl _
    | some m0 =>
      rw [hmr] at hm
      by_cases hlt : entryLt m0 e = true
      · simp only [hlt, if_pos, Option.some.injEq] at hm
        subst hm
        rcases List.mem_cons.mp hx with rfl | hx
        · exact entryLt_asymm hlt
        · exact ih _ hmr x hx
      · simp only [Bool.not_eq_true] at hlt
        simp only [hlt, Bool.false_eq_true, if_false, Option.some.injEq] at hm
        subst hm
        rcases List.mem_cons.mp hx with rfl | hx
        · exact entryLt_irrefl _
        · exact entryLt_neg_trans (ih m0 hmr x hx) hlt

theorem removeFirst_perm : ∀ (l : List Entry) (m : Entry), m ∈ l →
    l.Perm (m :: removeFirst l m) := by
  intro l
  induction l with
  | nil => intro m hm; cases hm
  | cons x xs ih =>
    intro m hm
    by_cases hx : x = m
    · subst hx
      simp [removeFirst]
    · have hmx : m ∈ xs := by
        cases hm with
        | head => exact absurd rfl hx
        | tail _ h => exact h
      simp only [removeFirst, hx, if_false]
      exact (List.Perm.cons x (ih m hmx)).trans (List.Perm.swap m x _)

theorem popMin_none_iff (h : List Entry) : popMin h = none ↔ h = [] := by
  simp only [popMin]
  cases hm : minEntry h with
  | none => simp [(minEntry_none_iff h).mp hm]
  | some m =>
    simp only [reduceCtorEq, false_iff]
    intro hnil
    subst hnil
    simp [minEntry] at hm

theorem popMin_spec {h : List Entry} {e : Entry} {rest : List Entry}
    (hp : popMin h = some (e, rest)) :
    h.Perm (e :: rest) ∧ ∀ x ∈ h, entryLt x e = false := by
  simp only [popMin] at hp
  cases hm : minEntry h with
  | none => rw [hm] at hp; simp at hp
  | some m =>
    rw [hm] at hp
    simp only [Option.some.injEq, Prod.mk.injEq] at hp
    obtain ⟨rfl, rfl⟩ := hp
    exact ⟨removeFirst_perm h _ (minEntry_mem h _ hm), minEntry_min h _ hm⟩

/-! ### The push loop -/

theorem pushStep_cases (d : WTable) (vis : List String) (dst : String)
    (h : List Entry) (nb : String) :
    (vis.contains nb = true ∧ pushStep d vis dst h nb = h) ∨
    (vis.contains nb = false ∧ edgeWeight d dst nb = none ∧ pushStep d vis dst h nb = h) ∨
    (vis.contains nb = false ∧ ∃ w, edgeWeight d dst nb = some w ∧
      pushStep d vis dst h nb = h ++ [(w, dst, nb)]) := by
  cases hv : vis.contains nb with
  | true =>
    have hval : pushStep d vis dst h nb = h := by
      unfold pushStep
      rw [hv]
      simp
    exact Or.inl ⟨rfl, hval⟩
  | false =>
    cases h1 : hasKey d (dst, nb) with
    | true =>
      have hval : pushStep d vis dst h nb = h ++ [((wlookup d (dst, nb)).getD 0, dst, nb)] := by
        unfold pushStep
        rw [hv, h1]
        simp
      obtain ⟨w, hw⟩ := Option.isSome_iff_exists.mp h1
      have hew : edgeWeight d dst nb = some w := by
        unfold edgeWeight
        rw [hw]
      refine Or.inr (Or.inr ⟨rfl, w, hew, ?_⟩)
      rw [hval, hw]
      rfl
    | false =>
      have h1' : wlookup d (dst, nb) = none :=
        Option.not_isSome_iff_eq_none.mp (fun hs => by rw [hasKey, hs] at h1; cases h1)
      cases h2 : hasKey d (nb, dst) with
      | true =>
        have hval : pushStep d vis dst h nb = h ++ [((wlookup d (nb, dst)).getD 0, dst, nb)] := by
          unfold pushStep
          rw [hv, h1, h2]
          simp
        obtain ⟨w, hw⟩ := Option.isSome_iff_exists.mp h2
        have hew : edgeWeight d dst nb = some w := by
          unfold edgeWeight
          rw [h1', hw]
        refine Or.inr (Or.inr ⟨rfl, w, hew, ?_⟩)
        rw [hval, hw]
        rfl
      | false =>
        have h2' : wlookup d (nb, dst) = none :=
          Option.not_isSome_iff_eq_none.mp (fun hs => by rw [hasKey, hs] at h2; cases h2)
        have hval : pushStep d vis dst h nb = h := by
          unfold pushStep
          rw [hv, h1, h2]
          simp
        have hew : edgeWeight d dst nb = none := by
          unfold edgeWeight
          rw [h1', h2']
        exact Or.inr (Or.inl ⟨rfl, hew, hval⟩)

theorem pushFold_spec (d : WTable) (vis : List String) (dst : String) :
    ∀ (l : List String) (heap : List Entry),
      ∃ added, l.foldl (pushStep d vis dst) heap = heap ++ added ∧
        added.length ≤ l.length ∧
        ∀ e ∈ added, e.2.1 = dst ∧ e.2.2 ∈ l ∧ vis.contains e.2.2 = false ∧
          edgeWeight d dst e.2.2 = some e.1 := by
  intro l
  induction l with
  | nil => intro heap; exact ⟨[], by simp⟩
  | cons nb l' ih =>
    intro heap
    simp only [List.foldl_cons]
    rcases pushStep_cases d vis dst heap nb with ⟨hv, hstep⟩ | ⟨hv, hw, hstep⟩ |
        ⟨hv, w, hw, hstep⟩
    · rw [hstep]
      obtain ⟨added, h1, h2, h3⟩ := ih heap
      exact ⟨added, h1, by simpa using Nat.le_succ_of_le h2,
        fun e he => by
          obtain ⟨a1, a2, a3, a4⟩ := h3 e he
          exact ⟨a1, List.mem_cons_of_mem nb a2, a3, a4⟩⟩
    · rw [hstep]
      obtain ⟨added, h1, h2, h3⟩ := ih heap
      exact ⟨added, h1, by simpa using Nat.le_succ_of_le h2,
        fun e he => by
          obtain ⟨a1, a2, a3, a4⟩ := h3 e he
          exact ⟨a1, List.mem_cons_of_mem nb a2, a3, a4⟩⟩
    · rw [hstep]
      obtain ⟨added, h1, h2, h3⟩ := ih (heap ++ [(w, dst, nb)])
      refine ⟨(w, dst, nb) :: added, by simpa using h1, by simpa using h2, ?_⟩
      intro e he
      rcases List.mem_cons.mp he with rfl | he
      · exact ⟨rfl, List.mem_cons_self nb l', hv, hw⟩
      · obtain ⟨a1, a2, a3, a4⟩ := h3 e he
        exact ⟨a1, List.mem_cons_of_mem nb a2, a3, a4⟩

theorem pushNeighbors_spec (st : List String) (d : WTable) (vis : List String)
    (dst : String) (heap : List Entry) :
    ∃ added, pushNeighbors st d vis dst heap = heap ++ added ∧
      added.length ≤ st.length ∧
      ∀ e ∈ added, e.2.1 = dst ∧ e.2.2 ∈ st ∧ vis.contains e.2.2 = false ∧
        edgeWeight d dst e.2.2 = some e.1 := by
  exact pushFold_spec d vis dst st heap

theorem pushFold_covers (d : WTable) (vis : List String) (dst : String) :
    ∀ (l : List String) (heap : List Entry) (nb : String) (w : ℚ),
      nb ∈ l → vis.contains nb = false → edgeWeight d dst nb = some w →
      (w, dst, nb) ∈ l.foldl (pushStep d vis dst) heap := by
  intro l
  induction l with
  | nil => intro heap nb w hnb; cases hnb
  | cons x l' ih =>
    intro heap nb w hnb hv hw
    simp only [List.foldl_cons]
    rcases List.mem_cons.mp hnb with rfl | hnb
    · have hstep : pushStep d vis dst heap nb = heap ++ [(w, dst, nb)] := by
        rcases pushStep_cases d vis dst heap nb with ⟨h1, _⟩ | ⟨_, h2, _⟩ | ⟨_, w', hw', hs⟩
        · rw [h1] at hv; cases hv
        · rw [h2] at hw; cases hw
        · rw [hw'] at hw
          injection hw with hww
          rw [hs, hww]
      rw [hstep]
      obtain ⟨added, h1, _, _⟩ := pushFold_spec d vis dst l' (heap ++ [(w, dst, nb)])
      rw [h1]
      simp
    · exact ih _ nb w hnb hv hw

theorem pushNeighbors_covers (st : List String) (d : WTable) (vis : List String)
    (dst : String) (heap : List Entry) (nb : String) (w : ℚ)
    (h1 : nb ∈ st) (h2 : vis.contains nb = false) (h3 : edgeWeight d dst nb = some w) :
    (w, dst, nb) ∈ pushNeighbors st d vis dst heap :=
  pushFold_covers d vis dst st heap nb w h1 h2 h3

theorem pushNeighbors_mem_of_mem (st : List String) (d : WTable) (vis : List String)
    (dst : String) (heap : List Entry) (e : Entry) (he : e ∈ heap) :
    e ∈ pushNeighbors st d vis dst heap := by
  obtain ⟨added, h1, _, _⟩ := pushNeighbors_spec st d vis dst heap
  rw [h1]
  exact List.mem_append_left added he

/-! ### Termination of the Prim loop: the fuel is sufficient -/

theorem contains_true_iff (l : List String) (a : String) : l.contains a = true ↔ a ∈ l := by
  induction l with
  | nil => simp
  | cons x xs ih =>
    rw [List.contains_cons]
    simp only [Bool.or_eq_true, beq_iff_eq, List.mem_cons, ih]

theorem contains_false_iff (l : List String) (a : String) : l.contains a = false ↔ a ∉ l := by
  rw [Bool.eq_false_iff]
  exact not_congr (contains_true_iff l a)

theorem bool_le_of_imp {p q : Bool} (h : p = true → q = true) : p ≤ q := by
  cases p
  · exact Bool.false_le q
  · rw [h rfl]

theorem unvisCount_visit : ∀ (stadiums vis : List String) (x : String), x ∈ stadiums →
    vis.contains x = false → unvisCount stadiums (x :: vis) + 1 ≤ unvisCount stadiums vis := by
  intro stadiums
  induction stadiums with
  | nil => intro vis x hx; cases hx
  | cons s st ih =>
    intro vis x hx hnv
    unfold unvisCount at *
    by_cases hsx : s = x
    · subst hsx
      rw [List.filter_cons, List.filter_cons]
      have h1 : (!(s :: vis).contains s) = false := by
        simp [List.contains_cons]
      have h2 : (!vis.contains s) = true := by
        rw [hnv]
        rfl
      rw [h1, h2]
      simp only [Bool.false_eq_true, if_false, if_true, List.length_cons]
      apply Nat.succ_le_succ
      apply List.Sublist.length_le
      apply List.monotone_filter_right
      intro a
      apply bool_le_of_imp
      intro ha
      simp only [List.contains_cons, Bool.not_or, Bool.and_eq_true] at ha
      exact ha.2
    · have hx' : x ∈ st := by
        cases hx with
        | head => exact absurd rfl hsx
        | tail _ h => exact h
      have IH := ih vis x hx' hnv
      rw [List.filter_cons, List.filter_cons]
      have hcond : (!(x :: vis).contains s) = (!vis.contains s) := by
        have hne : (s == x) = false := beq_eq_false_iff_ne.mpr hsx
        rw [List.contains_cons, hne]
        simp
      rw [hcond]
      cases hv : (!vis.contains s) <;>
        simp only [Bool.false_eq_true, if_false, if_true, List.length_cons] <;> omega

theorem unvisCount_junk (stadiums vis : List String) (x : String) (hx : x ∉ stadiums) :
    unvisCount stadiums (x :: vis) = unvisCount stadiums vis := by
  unfold unvisCount
  have h : ∀ a ∈ stadiums, (!(x :: vis).contains a) = (!vis.contains a) := by
    intro a ha
    have hne : (a == x) = false := beq_eq_false_iff_ne.mpr (fun h => hx (h ▸ ha))
    rw [List.contains_cons, hne]
    simp
  rw [List.filter_congr h]

theorem junkCount_append (st : List String) (a b : List Entry) :
    junkCount st (a ++ b) = junkCount st a + junkCount st b := by
  unfold junkCount
  rw [List.filter_append, List.length_append]

theorem junkCount_pop {st : List String} {heap rest : List Entry} {e : Entry}
    (hp : popMin heap = some (e, rest)) :
    junkCount st heap = junkCount st rest + (if st.contains e.2.2 then 0 else 1) := by
  obtain ⟨hperm, _⟩ := popMin_spec hp
  have := (hperm.filter (fun x => !st.contains x.2.2)).length_eq
  unfold junkCount
  rw [this, List.filter_cons]
  cases hc : st.contains e.2.2 <;> simp [hc, Nat.add_comm]

theorem primMeasure_pop_lt {st : List String} {heap rest : List Entry} {e : Entry}
    (visited : List String) (hp : popMin heap = some (e, rest)) :
    primMeasure st visited rest < primMeasure st visited heap := by
  obtain ⟨hperm, _⟩ := popMin_spec hp
  have hlen : heap.length = rest.length + 1 := by simpa using hperm.length_eq
  have hjunk : junkCount st rest ≤ junkCount st heap := by
    rw [junkCount_pop hp]
    omega
  unfold primMeasure
  exact Nat.add_lt_add_of_le_of_lt
    (Nat.mul_le_mul_right _ (Nat.add_le_add_left hjunk _)) (by omega)

theorem primMeasure_visit_lt {st : List String} {d : WTable} {heap rest : List Entry}
    {e : Entry} (visited : List String) (hp : popMin heap = some (e, rest))
    (hnv : visited.contains e.2.2 = false) :
    primMeasure st (e.2.2 :: visited)
      (pushNeighbors st d (e.2.2 :: visited) e.2.2 rest) < primMeasure st visited heap := by
  obtain ⟨hperm, _⟩ := popMin_spec hp
  have hlen : heap.length = rest.length + 1 := by simpa using hperm.length_eq
  obtain ⟨added, hpush, haddlen, hprops⟩ := pushNeighbors_spec st d (e.2.2 :: visited) e.2.2 rest
  have hjadd : junkCount st added = 0 := by
    unfold junkCount
    rw [List.length_eq_zero, List.filter_eq_nil_iff]
    intro x hx
    have hc : st.contains x.2.2 = true := (contains_true_iff st x.2.2).mpr (hprops x hx).2.1
    rw [hc]
    simp
  have hjheap' : junkCount st (pushNeighbors st d (e.2.2 :: visited) e.2.2 rest) =
      junkCount st rest := by
    rw [hpush, junkCount_append, hjadd]
    omega
  have hlen' : (pushNeighbors st d (e.2.2 :: visited) e.2.2 rest).length ≤
      rest.length + st.length := by
    rw [hpush, List.length_append]
    omega
  unfold primMeasure
  rw [hjheap']
  by_cases hmem : e.2.2 ∈ st
  · have hu := unvisCount_visit st visited e.2.2 hmem hnv
    have hjr : junkCount st rest ≤ junkCount st heap := by
      rw [junkCount_pop hp]
      omega
    have hsum : unvisCount st (e.2.2 :: visited) + junkCount st rest + 1 ≤
        unvisCount st visited + junkCount st heap := by omega
    have hmul : (unvisCount st (e.2.2 :: visited) + junkCount st rest + 1) * (st.length + 1) ≤
        (unvisCount st visited + junkCount st heap) * (st.length + 1) :=
      Nat.mul_le_mul_right _ hsum
    rw [Nat.succ_mul] at hmul
    have hsmall : (pushNeighbors st d (e.2.2 :: visited) e.2.2 rest).length <
        (st.length + 1) + heap.length := by omega
    calc (unvisCount st (e.2.2 :: visited) + junkCount st rest) * (st.length + 1) +
          (pushNeighbors st d (e.2.2 :: visited) e.2.2 rest).length
        < (unvisCount st (e.2.2 :: visited) + junkCount st rest) * (st.length + 1) +
          ((st.length + 1) + heap.length) := Nat.add_lt_add_left hsmall _
      _ = ((unvisCount st (e.2.2 :: visited) + junkCount st rest) * (st.length + 1) +
          (st.length + 1)) + heap.length := (Nat.add_assoc _ _ _).symm
      _ ≤ (unvisCount st visited + junkCount st heap) * (st.length + 1) + heap.length :=
          Nat.add_le_add_right hmul _
  · have hu := unvisCount_junk st visited e.2.2 hmem
    have hcontains : st.contains e.2.2 = false := (contains_false_iff st e.2.2).mpr hmem
    have hjr : junkCount st heap = junkCount st rest + 1 := by
      rw [junkCount_pop hp, hcontains]
      simp
    rw [hu, hjr, ← Nat.add_assoc, Nat.succ_mul]
    have hsmall : (pushNeighbors st d (e.2.2 :: visited) e.2.2 rest).length <
        (st.length + 1) + heap.length := by omega
    calc (unvisCount st visited + junkCount st rest) * (st.length + 1) +
          (pushNeighbors st d (e.2.2 :: visited) e.2.2 rest).length
        < (unvisCount st visited + junkCount st rest) * (st.length + 1) +
          ((st.length + 1) + heap.length) := Nat.add_lt_add_left hsmall _
      _ = ((unvisCount st visited + junkCount st rest) * (st.length + 1) +
          (st.length + 1)) + heap.length := (Nat.add_assoc _ _ _).symm

theorem primLoopF_isSome (st : List String) (d : WTable) :
    ∀ (fuel : Nat) (visited : List String) (heap : List Entry)
      (mst : List (String × String)) (cost : ℚ),
      primMeasure st visited heap < fuel →
      (primLoopF st d fuel visited heap mst cost).isSome = true := by
  intro fuel
  induction fuel with
  | zero => intro _ _ _ _ h; omega
  | succ fuel ih =>
    intro visited heap mst cost hm
    unfold primLoopF
    by_cases hc : st.length - 1 ≤ mst.length
    · rw [if_pos hc]
      rfl
    · rw [if_neg hc]
      cases hp : popMin heap with
      | none => rfl
      | some pr =>
        obtain ⟨e, rest⟩ := pr
        dsimp only
        by_cases hv : visited.contains e.2.2 = true
        · rw [if_pos hv]
          exact ih _ _ _ _ (lt_of_lt_of_le (primMeasure_pop_lt visited hp) (by omega))
        · rw [if_neg hv]
          have hv' : visited.contains e.2.2 = false := by
            simpa using hv
          exact ih _ _ _ _
            (lt_of_lt_of_le (primMeasure_visit_lt visited hp hv') (by omega))

theorem prim_mst_some (st : List String) (d : WTable) (h : st ≠ []) :
    ∃ r, prim_mst st d = some r := by
  obtain ⟨s0, tl, rfl⟩ := List.exists_cons_of_ne_nil h
  have heq : prim_mst (s0 :: tl) d =
      primLoopF (s0 :: tl) d (primFuel (s0 :: tl)) [] [(0, s0, s0)] [] 0 := rfl
  rw [heq]
  apply Option.isSome_iff_exists.mp
  apply primLoopF_isSome
  unfold primMeasure primFuel
  have h1 : unvisCount (s0 :: tl) [] = (s0 :: tl).length := by
    unfold unvisCount
    simp
  have h2 : junkCount (s0 :: tl) [(0, s0, s0)] ≤ 1 := by
    unfold junkCount
    exact le_trans (List.length_filter_le _ _) (by simp)
  have hsum : unvisCount (s0 :: tl) [] + junkCount (s0 :: tl) [(0, s0, s0)] ≤
      (s0 :: tl).length + 1 := by omega
  have hmul := Nat.mul_le_mul_right ((s0 :: tl).length + 1) hsum
  have hone : ([(((0 : ℚ), s0, s0) : Entry)] : List Entry).length = 1 := rfl
  rw [hone]
  exact lt_of_le_of_lt (Nat.add_le_add_right hmul 1) (Nat.add_lt_add_left (by omega) _)

/-! ### Reachability along an edge list -/

theorem ReachE_trans {E : List (String × String)} {x y z : String}
    (h1 : ReachE E x y) (h2 : ReachE E y z) : ReachE E x z := by
  induction h2 with
  | refl => exact h1
  | tail _ hedge ih => exact ReachE.tail ih hedge

theorem ReachE_symm {E : List (String × String)} {x y : String}
    (h : ReachE E x y) : ReachE E y x := by
  induction h with
  | refl => exact ReachE.refl _
  | tail _ hedge ih =>
    exact ReachE_trans (ReachE.tail (ReachE.refl _) (Or.symm hedge)) ih

theorem ReachE_mono {E E' : List (String × String)} (hsub : ∀ p ∈ E, p ∈ E')
    {x y : String} (h : ReachE E x y) : ReachE E' x y := by
  induction h with
  | refl => exact ReachE.refl _
  | tail _ hedge ih =>
    refine ReachE.tail ih ?_
    rcases hedge with h | h
    · exact Or.inl (hsub _ h)
    · exact Or.inr (hsub _ h)

theorem erasePair_perm : ∀ (l : List (String × String)) (m : String × String), m ∈ l →
    l.Perm (m :: erasePair l m) := by
  intro l
  induction l with
  | nil => intro m hm; cases hm
  | cons x xs ih =>
    intro m hm
    by_cases hx : x = m
    · subst hx
      simp [erasePair]
    · have hmx : m ∈ xs := by
        cases hm with
        | head => exact absurd rfl hx
        | tail _ h => exact h
      simp only [erasePair, hx, if_false]
      exact (List.Perm.cons x (ih m hmx)).trans (List.Perm.swap m x _)

theorem erasePair_subset : ∀ (l : List (String × String)) (m p : String × String),
    p ∈ erasePair l m → p ∈ l := by
  intro l
  induction l with
  | nil => intro m p hp; cases hp
  | cons x xs ih =>
    intro m p hp
    by_cases hx : x = m
    · subst hx
      simp only [erasePair, if_pos rfl] at hp
      exact List.mem_cons_of_mem x hp
    · simp only [erasePair, hx, if_false] at hp
      rcases List.mem_cons.mp hp with rfl | hp
      · exact List.mem_cons_self p xs
      · exact List.mem_cons_of_mem x (ih m p hp)

theorem mem_erasePair_of_ne : ∀ (l : List (String × String)) (m p : String × String),
    p ∈ l → p ≠ m → p ∈ erasePair l m := by
  intro l
  induction l with
  | nil => intro m p hp; cases hp
  | cons x xs ih =>
    intro m p hp hne
    by_cases hx : x = m
    · subst hx
      simp only [erasePair, if_pos rfl]
      rcases List.mem_cons.mp hp with rfl | hp
      · exact absurd rfl hne
      · exact hp
    · simp only [erasePair, hx, if_false]
      rcases List.mem_cons.mp hp with rfl | hp
      · exact List.mem_cons_self p _
      · exact List.mem_cons_of_mem x (ih m p hp hne)

/-- Any walk in `E` either survives erasing one occurrence of the edge
`f`, or decomposes at `f`'s endpoints. -/
theorem reach_erase_decomp {E : List (String × String)} {f : String × String} :
    ∀ {x y : String}, ReachE E x y →
      ReachE (erasePair E f) x y ∨
      (ReachE (erasePair E f) x f.1 ∧ ReachE (erasePair E f) f.2 y) ∨
      (ReachE (erasePair E f) x f.2 ∧ ReachE (erasePair E f) f.1 y) := by
  intro x y h
  induction h with
  | refl => exact Or.inl (ReachE.refl _)
  | @tail b c _ hedge ih =>
    rcases hedge with hyz | hzy
    · by_cases hf : (b, c) = f
      · have hy : f.1 = b := by rw [← hf]
        have hz : f.2 = c := by rw [← hf]
        rcases ih with ih | ⟨ih1, ih2⟩ | ⟨ih1, ih2⟩
        · exact Or.inr (Or.inl ⟨hy ▸ ih, (show ReachE (erasePair E f) f.2 c by rw [hz]; exact ReachE.refl c)⟩)
        · exact Or.inr (Or.inl ⟨ih1, (show ReachE (erasePair E f) f.2 c by rw [hz]; exact ReachE.refl c)⟩)
        · exact Or.inl (hz ▸ ih1)
      · have hmem : (b, c) ∈ erasePair E f := mem_erasePair_of_ne E f (b, c) hyz hf
        rcases ih with ih | ⟨ih1, ih2⟩ | ⟨ih1, ih2⟩
        · exact Or.inl (ReachE.tail ih (Or.inl hmem))
        · exact Or.inr (Or.inl ⟨ih1, ReachE.tail ih2 (Or.inl hmem)⟩)
        · exact Or.inr (Or.inr ⟨ih1, ReachE.tail ih2 (Or.inl hmem)⟩)
    · by_cases hf : (c, b) = f
      · have hz : f.1 = c := by rw [← hf]
        have hy : f.2 = b := by rw [← hf]
        rcases ih with ih | ⟨ih1, ih2⟩ | ⟨ih1, ih2⟩
        · exact Or.inr (Or.inr ⟨hy ▸ ih, (show ReachE (erasePair E f) f.1 c by rw [hz]; exact ReachE.refl c)⟩)
        · exact Or.inl (hz ▸ ih1)
        · exact Or.inr (Or.inr ⟨ih1, (show ReachE (erasePair E f) f.1 c by rw [hz]; exact ReachE.refl c)⟩)
      · have hmem : (c, b) ∈ erasePair E f := mem_erasePair_of_ne E f (c, b) hzy hf
        rcases ih with ih | ⟨ih1, ih2⟩ | ⟨ih1, ih2⟩
        · exact Or.inl (ReachE.tail ih (Or.inr hmem))
        · exact Or.inr (Or.inl ⟨ih1, ReachE.tail ih2 (Or.inr hmem)⟩)
        · exact Or.inr (Or.inr ⟨ih1, ReachE.tail ih2 (Or.inr hmem)⟩)

/-! ### Walks -/

theorem walk_to_reach {E : List (String × String)} :
    ∀ (l : List String) (x y : String), chainE E l → l.head? = some x →
      l.getLast? = some y → ReachE E x y := by
  intro l
  induction l with
  | nil => intro x y _ hh; cases hh
  | cons a l' ih =>
    intro x y hc hh hl
    simp only [List.head?_cons, Option.some.injEq] at hh
    subst hh
    cases l' with
    | nil =>
      simp only [List.getLast?_singleton, Option.some.injEq] at hl
      subst hl
      exact ReachE.refl a
    | cons b l'' =>
      rw [List.getLast?_cons_cons] at hl
      rw [chainE, List.chain'_cons] at hc
      exact ReachE_trans (ReachE.tail (ReachE.refl a) hc.1) (ih b y hc.2 rfl hl)

theorem reach_to_walk {E : List (String × String)} {x y : String} (h : ReachE E x y) :
    ∃ l, chainE E l ∧ l.head? = some x ∧ l.getLast? = some y := by
  induction h with
  | refl => exact ⟨[x], List.chain'_singleton x, rfl, rfl⟩
  | @tail b c _ hedge ih =>
    obtain ⟨l, hc, hh, hl⟩ := ih
    have hne : l ≠ [] := by
      intro h
      rw [h] at hh
      cases hh
    refine ⟨l ++ [c], ?_, ?_, ?_⟩
    · refine List.Chain'.append hc (List.chain'_singleton c) ?_
      intro a ha z hz
      simp only [List.head?_cons, Option.mem_def, Option.some.injEq] at hz
      subst hz
      rw [Option.mem_def, hl] at ha
      injection ha with ha
      subst ha
      exact hedge
    · rw [List.head?_append_of_ne_nil _ hne]
      exact hh
    · simp

theorem pair_sublist_split {x : String} :
    ∀ (l : List String), List.Sublist [x, x] l → ∃ l1 l2 l3, l = l1 ++ x :: (l2 ++ x :: l3) := by
  intro l
  induction l with
  | nil => intro h; cases h
  | cons a l' ih =>
    intro h
    cases h with
    | cons _ h' =>
      obtain ⟨l1, l2, l3, rfl⟩ := ih h'
      exact ⟨a :: l1, l2, l3, rfl⟩
    | cons₂ _ h' =>
      have hx : x ∈ l' := List.singleton_sublist.mp h'
      obtain ⟨l2, l3, rfl⟩ := List.append_of_mem hx
      exact ⟨[], l2, l3, rfl⟩

theorem exists_nodup_walk {E : List (String × String)} :
    ∀ (n : Nat) (l : List String), l.length ≤ n → chainE E l →
      ∃ l', chainE E l' ∧ l'.head? = l.head? ∧ l'.getLast? = l.getLast? ∧ l'.Nodup := by
  intro n
  induction n with
  | zero =>
    intro l hl _
    have : l = [] := List.length_eq_zero.mp (Nat.le_zero.mp hl)
    subst this
    exact ⟨[], List.chain'_nil, rfl, rfl, List.nodup_nil⟩
  | succ n ih =>
    intro l hlen hc
    by_cases hnd : l.Nodup
    · exact ⟨l, hc, rfl, rfl, hnd⟩
    · obtain ⟨x, hdup⟩ := List.exists_duplicate_iff_not_nodup.mpr hnd
      obtain ⟨l1, l2, l3, rfl⟩ := pair_sublist_split _ (List.duplicate_iff_sublist.mp hdup)
      -- surgery: cut out the loop between the two occurrences of x
      have hrw : l1 ++ x :: (l2 ++ x :: l3) = l1 ++ (x :: l2) ++ (x :: l3) := by simp
      have hc' : chainE E (l1 ++ (x :: l2) ++ (x :: l3)) := by rwa [hrw] at hc
      rw [chainE, List.chain'_append, List.chain'_append] at hc'
      obtain ⟨⟨c1, c2, link1⟩, c3, link2⟩ := hc'
      have hcnew : chainE E (l1 ++ (x :: l3)) := by
        rw [chainE, List.chain'_append]
        refine ⟨c1, c3, ?_⟩
        intro a ha z hz
        simp only [List.head?_cons, Option.mem_def, Option.some.injEq] at hz
        subst hz
        exact link1 a ha x (by simp)
      have hlen' : (l1 ++ (x :: l3)).length ≤ n := by
        simp only [List.length_append, List.length_cons] at hlen ⊢
        omega
      obtain ⟨l', hl'c, hl'h, hl'l, hl'nd⟩ := ih (l1 ++ (x :: l3)) hlen' hcnew
      refine ⟨l', hl'c, ?_, ?_, hl'nd⟩
      · rw [hl'h]
        cases l1 <;> simp
      · rw [hl'l, hrw, List.getLast?_append, List.getLast?_append]
        obtain ⟨v, hv⟩ : ∃ v, (x :: l3).getLast? = some v :=
          Option.isSome_iff_exists.mp
            (by rw [List.getLast?_isSome]; exact List.cons_ne_nil x l3)
        rw [hv]
        rfl

/-- Split a walk that starts in `vis` and ends outside it at its last
crossing: the suffix after the crossing stays outside `vis`. -/
theorem crossing_split (vis : List String) :
    ∀ (l : List String), (∃ v ∈ l, v ∈ vis) → (∀ t, l.getLast? = some t → t ∉ vis) →
      ∃ l1 u w l2, l = l1 ++ u :: w :: l2 ∧ u ∈ vis ∧ w ∉ vis ∧ ∀ z ∈ w :: l2, z ∉ vis := by
  intro l
  induction l with
  | nil =>
    rintro ⟨v, hv, _⟩
    cases hv
  | cons a rest ih =>
    intro hex hlast
    by_cases hrest : ∃ v ∈ rest, v ∈ vis
    · have hne : rest ≠ [] := by
        rintro rfl
        obtain ⟨v, hv, _⟩ := hrest
        cases hv
      have hlast' : ∀ t, rest.getLast? = some t → t ∉ vis := by
        intro t ht
        apply hlast
        cases rest with
        | nil => cases ht
        | cons b rest' => rwa [List.getLast?_cons_cons]
      obtain ⟨l1, u, w, l2, heq, hu, hw, hsuf⟩ := ih hrest hlast'
      exact ⟨a :: l1, u, w, l2, by rw [heq]; rfl, hu, hw, hsuf⟩
    · push_neg at hrest
      obtain ⟨v, hv, hvin⟩ := hex
      have hva : v = a := by
        rcases List.mem_cons.mp hv with rfl | hv'
        · rfl
        · exact absurd hvin (hrest v hv')
      subst hva
      cases rest with
      | nil => exact absurd hvin (hlast v rfl)
      | cons w rest' =>
        exact ⟨[], v, w, rest', rfl, hvin, hrest w (List.mem_cons_self _ _),
          fun z hz => hrest z hz⟩

/-- A walk avoiding one endpoint of `f` survives erasing `f`. -/
theorem chain_erase {E : List (String × String)} {f : String × String} :
    ∀ (l : List String), chainE E l → (f.1 ∉ l ∨ f.2 ∉ l) →
      chainE (erasePair E f) l := by
  intro l
  induction l with
  | nil => intro _ _; exact List.chain'_nil
  | cons a rest ih =>
    intro hc hnot
    cases rest with
    | nil => exact List.chain'_singleton a
    | cons b rest' =>
      rw [chainE, List.chain'_cons] at hc ⊢
      have hnot' : (f.1 ∉ b :: rest' ∨ f.2 ∉ b :: rest') := by
        rcases hnot with h1 | h2
        · exact Or.inl (fun hm => h1 (List.mem_cons_of_mem a hm))
        · exact Or.inr (fun hm => h2 (List.mem_cons_of_mem a hm))
      refine ⟨?_, ih hc.2 hnot'⟩
      rcases hc.1 with hab | hba
      · left
        apply mem_erasePair_of_ne E f _ hab
        intro hfeq
        rcases hnot with h1 | h2
        · apply h1
          rw [← hfeq]
          exact List.mem_cons_self a _
        · apply h2
          rw [← hfeq]
          exact List.mem_cons_of_mem a (List.mem_cons_self b _)
      · right
        apply mem_erasePair_of_ne E f _ hba
        intro hfeq
        rcases hnot with h1 | h2
        · apply h1
          rw [← hfeq]
          exact List.mem_cons_of_mem a (List.mem_cons_self b _)
        · apply h2
          rw [← hfeq]
          exact List.mem_cons_self a _

/-- The exchange construction: if `frm ∈ vis` reaches `tov ∉ vis` in the
edge list `E`, there is an edge `f` of `E` crossing the cut such that
adding `(frm, tov)` and erasing `f` preserves all connectivity. -/
theorem exchange {E : List (String × String)} {vis : List String} {frm tov : String}
    (h : ReachE E frm tov) (hf : frm ∈ vis) (ht : tov ∉ vis) :
    ∃ u w f, u ∈ vis ∧ w ∉ vis ∧ f ∈ E ∧ (f = (u, w) ∨ f = (w, u)) ∧
      ∀ x y, ReachE E x y → ReachE ((frm, tov) :: erasePair E f) x y := by
  obtain ⟨l0, hc0, hh0, hl0⟩ := reach_to_walk h
  obtain ⟨l, hc, hh, hl, hnd⟩ := exists_nodup_walk l0.length l0 (le_refl _) hc0
  rw [hh0] at hh
  rw [hl0] at hl
  have hex : ∃ v ∈ l, v ∈ vis :=
    ⟨frm, List.mem_of_mem_head? (by rw [hh]; rfl), hf⟩
  have hlastvis : ∀ t, l.getLast? = some t → t ∉ vis := by
    intro t htl
    rw [hl] at htl
    injection htl with h'
    subst h'
    exact ht
  obtain ⟨l1, u, w, l2, heq, hu, hw, hsuf⟩ := crossing_split vis l hex hlastvis
  rw [heq] at hc hnd hh hl
  have hchain' := hc
  rw [chainE, List.chain'_append] at hchain'
  obtain ⟨ca, cb, lab⟩ := hchain'
  have hedge : (u, w) ∈ E ∨ (w, u) ∈ E := by
    rw [List.chain'_cons] at cb
    exact cb.1
  have hcw : chainE E (w :: l2) := by
    rw [List.chain'_cons] at cb
    exact cb.2
  have hcpre : chainE E (l1 ++ [u]) := by
    rw [chainE, List.chain'_append]
    refine ⟨ca, List.chain'_singleton u, ?_⟩
    intro a ha z hz
    simp only [List.head?_cons, Option.mem_def, Option.some.injEq] at hz
    subst hz
    exact lab a ha u (by simp)
  have hndsplit : (l1 ++ [u]).Nodup ∧ (w :: l2).Nodup ∧ ∀ z ∈ l1 ++ [u], z ∉ w :: l2 := by
    have hassoc : l1 ++ u :: w :: l2 = (l1 ++ [u]) ++ (w :: l2) := by simp
    rw [hassoc, List.nodup_append] at hnd
    exact ⟨hnd.1, hnd.2.1, hnd.2.2⟩
  have hwnot : w ∉ l1 ++ [u] := by
    intro hwin
    exact (hndsplit.2.2 w hwin) (List.mem_cons_self w l2)
  have hunot : u ∉ w :: l2 := by
    intro huin
    exact (hndsplit.2.2 u (by simp)) huin
  obtain ⟨f, hfE, hform⟩ : ∃ f, f ∈ E ∧ (f = (u, w) ∨ f = (w, u)) := by
    rcases hedge with h' | h'
    · exact ⟨(u, w), h', Or.inl rfl⟩
    · exact ⟨(w, u), h', Or.inr rfl⟩
  have hcpre' : chainE (erasePair E f) (l1 ++ [u]) := by
    apply chain_erase _ hcpre
    rcases hform with rfl | rfl
    · exact Or.inr hwnot
    · exact Or.inl hwnot
  have hcsuf' : chainE (erasePair E f) (w :: l2) := by
    apply chain_erase _ hcw
    rcases hform with rfl | rfl
    · exact Or.inl hunot
    · exact Or.inr hunot
  have hh' : (l1 ++ [u]).head? = some frm := by
    cases l1 with
    | nil => simpa using hh
    | cons a t => simpa using hh
  have hl2' : (w :: l2).getLast? = some tov := by
    have hassoc : l1 ++ u :: w :: l2 = (l1 ++ [u]) ++ (w :: l2) := by simp
    rw [hassoc, List.getLast?_append] at hl
    obtain ⟨v, hv⟩ : ∃ v, (w :: l2).getLast? = some v :=
      Option.isSome_iff_exists.mp
        (by rw [List.getLast?_isSome]; exact List.cons_ne_nil w l2)
    rw [hv] at hl ⊢
    rw [Option.or_some] at hl
    exact hl
  have hpre : ReachE (erasePair E f) frm u :=
    walk_to_reach (l1 ++ [u]) frm u hcpre' hh' (by simp)
  have hsufr : ReachE (erasePair E f) w tov :=
    walk_to_reach (w :: l2) w tov hcsuf' rfl hl2'
  have hmono : ∀ p ∈ erasePair E f, p ∈ (frm, tov) :: erasePair E f :=
    fun p hp => List.mem_cons_of_mem _ hp
  have h1 : ReachE ((frm, tov) :: erasePair E f) frm u := ReachE_mono hmono hpre
  have h2 : ReachE ((frm, tov) :: erasePair E f) w tov := ReachE_mono hmono hsufr
  have hfrmtov : ReachE ((frm, tov) :: erasePair E f) frm tov :=
    ReachE.tail (ReachE.refl frm) (Or.inl (List.mem_cons_self _ _))
  have huw : ReachE ((frm, tov) :: erasePair E f) u w :=
    ReachE_trans (ReachE_symm h1) (ReachE_trans hfrmtov (ReachE_symm h2))
  have hf12 : ReachE ((frm, tov) :: erasePair E f) f.1 f.2 := by
    rcases hform with rfl | rfl
    · exact huw
    · exact ReachE_symm huw
  refine ⟨u, w, f, hu, hw, hfE, hform, ?_⟩
  intro x y hxy
  rcases reach_erase_decomp (f := f) hxy with hcase | ⟨ha, hb⟩ | ⟨ha, hb⟩
  · exact ReachE_mono hmono hcase
  · exact ReachE_trans (ReachE_mono hmono ha)
      (ReachE_trans hf12 (ReachE_mono hmono hb))
  · exact ReachE_trans (ReachE_mono hmono ha)
      (ReachE_trans (ReachE_symm hf12) (ReachE_mono hmono hb))

/-! ### Weight lemmas -/

theorem wlookup_mem : ∀ (t : WTable) (k : String × String) (w : ℚ),
    wlookup t k = some w → (k, w) ∈ t := by
  intro t
  induction t with
  | nil => intro k w h; cases h
  | cons p rest ih =>
    intro k w h
    rw [wlookup] at h
    split at h
    · injection h with h'
      subst h'
      rename_i heq
      subst heq
      exact List.mem_cons_self _ _
    · exact List.mem_cons_of_mem p (ih k w h)

theorem adjKey_symm {t : WTable} {a b : String} (h : adjKey t a b) : adjKey t b a :=
  Or.symm h

theorem edgeWeight_some_of_adjKey {t : WTable} {a b : String} (h : adjKey t a b) :
    ∃ w, edgeWeight t a b = some w := by
  rcases h with h | h
  · obtain ⟨w, hw⟩ := Option.isSome_iff_exists.mp h
    exact ⟨w, by rw [edgeWeight, hw]⟩
  · obtain ⟨w, hw⟩ := Option.isSome_iff_exists.mp h
    cases hab : wlookup t (a, b) with
    | some w' => exact ⟨w', by rw [edgeWeight, hab]⟩
    | none => exact ⟨w, by rw [edgeWeight, hab, hw]⟩

theorem adjKey_of_edgeWeight {t : WTable} {a b : String} {w : ℚ}
    (h : edgeWeight t a b = some w) : adjKey t a b := by
  cases hab : wlookup t (a, b) with
  | some w' => exact Or.inl (by rw [hasKey, hab]; rfl)
  | none =>
    right
    rw [edgeWeight] at h
    simp only [hab] at h
    rw [hasKey, h]
    rfl

theorem edgeWeight_nonneg {t : WTable} (hn : NonnegWeights t) {a b : String} {w : ℚ}
    (h : edgeWeight t a b = some w) : 0 ≤ w := by
  cases hab : wlookup t (a, b) with
  | some w' =>
    rw [edgeWeight] at h
    simp only [hab, Option.some.injEq] at h
    subst h
    exact hn _ (wlookup_mem t (a, b) w' hab)
  | none =>
    rw [edgeWeight] at h
    simp only [hab] at h
    exact hn _ (wlookup_mem t (b, a) w h)

theorem edgeWeight_symm {t : WTable} (ho : OneOrientation t) (a b : String) :
    edgeWeight t a b = edgeWeight t b a := by
  by_cases hab : a = b
  · rw [hab]
  · cases h1 : wlookup t (a, b) with
    | some w =>
      have hk1 : hasKey t (a, b) = true := by rw [hasKey, h1]; rfl
      have hk2 : hasKey t (b, a) = false := ho a b hab hk1
      have h2 : wlookup t (b, a) = none := by
        cases h2 : wlookup t (b, a) with
        | none => rfl
        | some w' => rw [hasKey, h2] at hk2; cases hk2
      rw [edgeWeight, edgeWeight, h1, h2]
    | none =>
      cases h2 : wlookup t (b, a) with
      | some w' => rw [edgeWeight, edgeWeight, h1, h2]
      | none => rw [edgeWeight, edgeWeight, h1, h2]

theorem pairWeight_swap {t : WTable} (ho : OneOrientation t) (a b : String) :
    pairWeight t (b, a) = pairWeight t (a, b) := by
  rw [pairWeight, pairWeight]
  simp only
  rw [edgeWeight_symm ho b a]

theorem edgesWeight_nil (t : WTable) : edgesWeight t [] = 0 := rfl

theorem edgesWeight_cons (t : WTable) (e : String × String) (E : List (String × String)) :
    edgesWeight t (e :: E) = pairWeight t e + edgesWeight t E := by
  rw [edgesWeight, edgesWeight, List.map_cons, List.sum_cons]

theorem edgesWeight_append (t : WTable) (E F : List (String × String)) :
    edgesWeight t (E ++ F) = edgesWeight t E + edgesWeight t F := by
  rw [edgesWeight, edgesWeight, edgesWeight, List.map_append, List.sum_append]

theorem edgesWeight_perm (t : WTable) {E F : List (String × String)} (h : E.Perm F) :
    edgesWeight t E = edgesWeight t F :=
  List.Perm.sum_eq (h.map (pairWeight t))

theorem pairWeight_nonneg {t : WTable} (hn : NonnegWeights t) (e : String × String) :
    0 ≤ pairWeight t e := by
  rw [pairWeight]
  cases h : edgeWeight t e.1 e.2 with
  | none => simp
  | some w => simpa using edgeWeight_nonneg hn h

theorem edgesWeight_nonneg {t : WTable} (hn : NonnegWeights t) (E : List (String × String)) :
    0 ≤ edgesWeight t E := by
  rw [edgesWeight]
  apply List.sum_nonneg
  intro x hx
  obtain ⟨e, _, rfl⟩ := List.mem_map.mp hx
  exact pairWeight_nonneg hn e

theorem edgesWeight_prefix_le {t : WTable} (hn : NonnegWeights t)
    (E F : List (String × String)) : edgesWeight t E ≤ edgesWeight t (E ++ F) := by
  rw [edgesWeight_append]
  have := edgesWeight_nonneg hn F
  linarith

theorem entryLt_false_fst_le {x e : Entry} (h : entryLt x e = false) : e.1 ≤ x.1 := by
  rw [Bool.eq_false_iff, Ne, entryLt_iff] at h
  push_neg at h
  exact h.1

/-! ### The main loop invariant -/

theorem primLoopF_spec (st : List String) (d : WTable) (s0 : String) :
    ∀ (fuel : Nat) (visited : List String) (heap : List Entry)
      (mst : List (String × String)) (cost : ℚ) (res : ℚ × List (String × String)),
      PrimInv st d s0 visited heap mst cost →
      primLoopF st d fuel visited heap mst cost = some res →
      ∃ visitedF heapF, res.1 = edgesWeight d res.2 ∧
        PrimInv st d s0 visitedF heapF res.2 res.1 ∧
        (st.length - 1 ≤ res.2.length ∨ heapF = []) := by
  intro fuel
  induction fuel with
  | zero =>
    intro visited heap mst cost res _ hrun
    exact Option.noConfusion hrun
  | succ fuel ih =>
    intro visited heap mst cost res hinv hrun
    rw [primLoopF] at hrun
    by_cases hc : st.length - 1 ≤ mst.length
    · rw [if_pos hc] at hrun
      injection hrun with hres
      subst hres
      exact ⟨visited, heap, hinv.cost_eq, hinv, Or.inl hc⟩
    · rw [if_neg hc] at hrun
      cases hp : popMin heap with
      | none =>
        rw [hp] at hrun
        dsimp only at hrun
        injection hrun with hres
        subst hres
        have hhe : heap = [] := (popMin_none_iff heap).mp hp
        rw [hhe] at hinv
        exact ⟨visited, [], hinv.cost_eq, hinv, Or.inr rfl⟩
      | some pr =>
        obtain ⟨e, rest⟩ := pr
        rw [hp] at hrun
        dsimp only at hrun
        obtain ⟨hperm, hmin⟩ := popMin_spec hp
        have hein : e ∈ heap := hperm.mem_iff.mpr (List.mem_cons_self e rest)
        obtain ⟨hfrm_vis, hto_st, hew⟩ := hinv.heap_inv e hein
        by_cases hv : visited.contains e.2.2 = true
        · rw [if_pos hv] at hrun
          have hto_vis : e.2.2 ∈ visited := (contains_true_iff _ _).mp hv
          have hinv' : PrimInv st d s0 visited rest mst cost :=
            { hinv with
              heap_inv := fun e' he' =>
                hinv.heap_inv e' (hperm.mem_iff.mpr (List.mem_cons_of_mem e he'))
              complete := by
                intro u hu z hz hznv hadj
                obtain ⟨c, hcmem⟩ := hinv.complete u hu z hz hznv hadj
                have hcr : (c, u, z) ∈ e :: rest := hperm.mem_iff.mp hcmem
                rcases List.mem_cons.mp hcr with heq | hmem
                · exfalso
                  apply hznv
                  rw [← heq] at hto_vis
                  exact hto_vis
                · exact ⟨c, hmem⟩ }
          exact ih visited rest mst cost res hinv' hrun
        · rw [if_neg hv] at hrun
          have hto_nvis : e.2.2 ∉ visited := by
            intro hmem
            rw [(contains_true_iff _ _).mpr hmem] at hv
            exact hv rfl
          have hne12 : e.2.1 ≠ e.2.2 := fun heq => hto_nvis (heq ▸ hfrm_vis)
          rw [if_neg hne12] at hrun
          have hadj_e : adjKey d e.2.1 e.2.2 := adjKey_of_edgeWeight hew
          obtain ⟨added, hpush, _, haddprops⟩ :=
            pushNeighbors_spec st d (e.2.2 :: visited) e.2.2 rest
          have hinv' : PrimInv st d s0 (e.2.2 :: visited)
              (pushNeighbors st d (e.2.2 :: visited) e.2.2 rest)
              (mst ++ [(e.2.1, e.2.2)]) (cost + e.1) := by
            refine
              { vis_ne := List.cons_ne_nil _ _
                vis_sub := ?_
                vis_nodup := List.nodup_cons.mpr ⟨hto_nvis, hinv.vis_nodup⟩
                s0_mem := List.mem_cons_of_mem _ hinv.s0_mem
                vis_reach := ?_
                heap_inv := ?_
                complete := ?_
                mst_count := ?_
                mst_ends := ?_
                vis_cover := ?_
                cost_eq := ?_
                promising := ?_ }
            · intro v hv'
              rcases List.mem_cons.mp hv' with rfl | hv'
              · exact hto_st
              · exact hinv.vis_sub v hv'
            · intro v hv'
              rcases List.mem_cons.mp hv' with rfl | hv'
              · exact Reach.tail (hinv.vis_reach e.2.1 hfrm_vis) hto_st hadj_e
              · exact hinv.vis_reach v hv'
            · intro e' he'
              rw [hpush] at he'
              rcases List.mem_append.mp he' with he' | he'
              · obtain ⟨h1, h2, h3⟩ :=
                  hinv.heap_inv e' (hperm.mem_iff.mpr (List.mem_cons_of_mem e he'))
                exact ⟨List.mem_cons_of_mem _ h1, h2, h3⟩
              · obtain ⟨h1, h2, _, h4⟩ := haddprops e' he'
                refine ⟨?_, h2, ?_⟩
                · rw [h1]
                  exact List.mem_cons_self _ _
                · rw [h1]
                  exact h4
            · intro u hu z hz hznv hadj
              rcases List.mem_cons.mp hu with rfl | hu
              · obtain ⟨w', hw'⟩ := edgeWeight_some_of_adjKey hadj
                refine ⟨w', ?_⟩
                exact pushNeighbors_covers st d (e.2.2 :: visited) e.2.2 rest z w' hz
                  ((contains_false_iff _ _).mpr hznv) hw'
              · have hznv' : z ∉ visited := fun hzv => hznv (List.mem_cons_of_mem _ hzv)
                obtain ⟨c, hcmem⟩ := hinv.complete u hu z hz hznv' hadj
                have hcr : (c, u, z) ∈ e :: rest := hperm.mem_iff.mp hcmem
                rcases List.mem_cons.mp hcr with heq | hmem
                · exfalso
                  apply hznv
                  rw [← heq]
                  exact List.mem_cons_self _ _
                · refine ⟨c, ?_⟩
                  rw [hpush]
                  exact List.mem_append_left added hmem
            · have := hinv.mst_count
              simp only [List.length_append, List.length_cons, List.length_nil]
              omega
            · intro ed hed
              rcases List.mem_append.mp hed with hed | hed
              · obtain ⟨h1, h2, h3⟩ := hinv.mst_ends ed hed
                exact ⟨List.mem_cons_of_mem _ h1, List.mem_cons_of_mem _ h2, h3⟩
              · rw [List.mem_singleton] at hed
                subst hed
                exact ⟨List.mem_cons_of_mem _ hfrm_vis, List.mem_cons_self _ _, hadj_e⟩
            · intro v hv'
              rcases List.mem_cons.mp hv' with rfl | hv'
              · exact Or.inr ⟨(e.2.1, e.2.2), List.mem_append_right mst (by simp), Or.inr rfl⟩
              · rcases hinv.vis_cover v hv' with h | ⟨ed, hed, hor⟩
                · exact Or.inl h
                · exact Or.inr ⟨ed, List.mem_append_left _ hed, hor⟩
            · rw [edgesWeight_append, edgesWeight_cons, edgesWeight_nil, hinv.cost_eq]
              have hpe : pairWeight d (e.2.1, e.2.2) = e.1 := by
                rw [pairWeight]
                simp only
                rw [hew]
                rfl
              rw [hpe]
              ring
            · intro horient E hspanE
              obtain ⟨T, extra, hTspan, hTperm, hTw⟩ := hinv.promising horient E hspanE
              have hreach : ReachE T e.2.1 e.2.2 :=
                hTspan.2 e.2.1 (hinv.vis_sub _ hfrm_vis) e.2.2 hto_st
              obtain ⟨u, w1, f, hu, hw1, hfT, hform, hreroute⟩ :=
                exchange hreach hfrm_vis hto_nvis
              have hfnm : f ∉ mst := by
                intro hfm
                obtain ⟨h1, h2, _⟩ := hinv.mst_ends f hfm
                rcases hform with rfl | rfl
                · exact hw1 h2
                · exact hw1 h1
              have hf_in_extra : f ∈ extra := by
                have hmem : f ∈ mst ++ extra := hTperm.mem_iff.mp hfT
                rcases List.mem_append.mp hmem with h | h
                · exact absurd h hfnm
                · exact h
              have hadj_f : adjKey d u w1 := by
                have hak := (hTspan.1 f hfT).2.2
                rcases hform with rfl | rfl
                · exact hak
                · exact adjKey_symm hak
              have hw1_st : w1 ∈ st := by
                obtain ⟨ha, hb, _⟩ := hTspan.1 f hfT
                rcases hform with rfl | rfl
                · exact hb
                · exact ha
              obtain ⟨cf, hcf_mem⟩ := hinv.complete u hu w1 hw1_st hw1 hadj_f
              obtain ⟨_, _, hcf_w⟩ := hinv.heap_inv _ hcf_mem
              have hle : e.1 ≤ cf := entryLt_false_fst_le (hmin _ hcf_mem)
              have hTsplit : T.Perm (f :: erasePair T f) := erasePair_perm T f hfT
              have hesplit : extra.Perm (f :: erasePair extra f) :=
                erasePair_perm extra f hf_in_extra
              have hTE : (erasePair T f).Perm (mst ++ erasePair extra f) := by
                have h1 : (f :: erasePair T f).Perm (f :: (mst ++ erasePair extra f)) :=
                  (hTsplit.symm.trans hTperm).trans
                    ((List.Perm.append_left mst hesplit).trans List.perm_middle)
                exact h1.cons_inv
              refine ⟨(e.2.1, e.2.2) :: erasePair T f, erasePair extra f, ⟨?_, ?_⟩, ?_, ?_⟩
              · intro ed hed
                rcases List.mem_cons.mp hed with rfl | hed
                · exact ⟨hinv.vis_sub _ hfrm_vis, hto_st, hadj_e⟩
                · exact hTspan.1 ed (erasePair_subset T f ed hed)
              · intro x hx y hy
                exact hreroute x y (hTspan.2 x hx y hy)
              · refine (List.Perm.cons _ hTE).trans ?_
                refine List.perm_middle.symm.trans ?_
                have heq2 : mst ++ (e.2.1, e.2.2) :: erasePair extra f =
                    (mst ++ [(e.2.1, e.2.2)]) ++ erasePair extra f := by simp
                rw [heq2]
              · have hwT : edgesWeight d T =
                    pairWeight d f + edgesWeight d (erasePair T f) := by
                  rw [edgesWeight_perm d hTsplit, edgesWeight_cons]
                have hwT' : edgesWeight d ((e.2.1, e.2.2) :: erasePair T f) =
                    pairWeight d (e.2.1, e.2.2) + edgesWeight d (erasePair T f) :=
                  edgesWeight_cons d _ _
                have hpe : pairWeight d (e.2.1, e.2.2) = e.1 := by
                  rw [pairWeight]
                  simp only
                  rw [hew]
                  rfl
                have hpf : pairWeight d f = cf := by
                  rcases hform with rfl | rfl
                  · rw [pairWeight]
                    simp only
                    rw [hcf_w]
                    rfl
                  · rw [pairWeight_swap horient u w1]
                    rw [pairWeight]
                    simp only
                    rw [hcf_w]
                    rfl
                rw [hwT', hpe]
                rw [hwT, hpf] at hTw
                linarith
          exact ih _ _ _ _ res hinv' hrun

/-! ### Wrapping up `prim_mst` -/

theorem prim_mst_eq_loop (s0 : String) (tl : List String) (d : WTable) :
    prim_mst (s0 :: tl) d =
      primLoopF (s0 :: tl) d (primFuel (s0 :: tl)) [] [(0, s0, s0)] [] 0 := rfl

theorem prim_mst_singleton (s0 : String) (d : WTable) :
    prim_mst [s0] d = some (0, []) := by
  rw [prim_mst_eq_loop, primFuel]
  have h6 : ([s0] : List String).length + 1 = 2 := rfl
  rw [show (([s0] : List String).length + 1) * (([s0] : List String).length + 1) + 2
      = 5 + 1 from rfl]
  rw [primLoopF]
  rw [if_pos (by simp)]

theorem primLoopF_start (s0 : String) (tl : List String) (d : WTable)
    (h2 : ¬ (s0 :: tl).length - 1 ≤ 0) :
    primLoopF (s0 :: tl) d (primFuel (s0 :: tl)) [] [(0, s0, s0)] [] 0 =
      primLoopF (s0 :: tl) d ((((s0 :: tl).length + 1) * ((s0 :: tl).length + 1)) + 1)
        [s0] (pushNeighbors (s0 :: tl) d [s0] s0 []) [] 0 := by
  have hfuel : primFuel (s0 :: tl) =
      ((((s0 :: tl).length + 1) * ((s0 :: tl).length + 1)) + 1) + 1 := rfl
  rw [hfuel, primLoopF]
  rw [if_neg (by simpa using h2)]
  have hpop : popMin [((0 : ℚ), s0, s0)] = some ((0, s0, s0), []) := by
    simp [popMin, minEntry, removeFirst]
  rw [hpop]
  dsimp only
  rw [if_neg (by simp)]
  rw [if_pos rfl]
  norm_num

theorem primInv_start (s0 : String) (tl : List String) (d : WTable) :
    PrimInv (s0 :: tl) d s0 [s0] (pushNeighbors (s0 :: tl) d [s0] s0 []) [] 0 := by
  obtain ⟨added, hpush, _, hprops⟩ := pushNeighbors_spec (s0 :: tl) d [s0] s0 []
  refine
    { vis_ne := by simp
      vis_sub := ?_
      vis_nodup := by simp
      s0_mem := by simp
      vis_reach := ?_
      heap_inv := ?_
      complete := ?_
      mst_count := by simp
      mst_ends := by intro e he; cases he
      vis_cover := fun v hv => Or.inl (List.mem_singleton.mp hv)
      cost_eq := rfl
      promising := ?_ }
  · intro v hv
    rw [List.mem_singleton] at hv
    subst hv
    exact List.mem_cons_self _ _
  · intro v hv
    rw [List.mem_singleton] at hv
    subst hv
    exact Reach.refl v
  · intro e he
    rw [hpush, List.nil_append] at he
    obtain ⟨h1, h2, _, h4⟩ := hprops e he
    refine ⟨by rw [h1]; simp, h2, ?_⟩
    rw [h1]
    exact h4
  · intro u hu z hz hznv hadj
    rw [List.mem_singleton] at hu
    subst hu
    obtain ⟨w', hw'⟩ := edgeWeight_some_of_adjKey hadj
    exact ⟨w', pushNeighbors_covers _ d [u] u [] z w' hz
      ((contains_false_iff _ _).mpr hznv) hw'⟩
  · intro _ E hspanE
    exact ⟨E, E, hspanE, by simp, le_refl _⟩

theorem reach_closed {d : WTable} {st visitedF : List String} {s0 : String}
    (hs0 : s0 ∈ visitedF)
    (hclosed : ∀ u ∈ visitedF, ∀ z ∈ st, z ∉ visitedF → ¬ adjKey d u z) :
    ∀ v, Reach d st s0 v → v ∈ visitedF := by
  intro v h
  induction h with
  | refl => exact hs0
  | tail _ hz hadj ih =>
    by_contra hnv
    exact hclosed _ ih _ hz hnv hadj

/-- Summary of a completed `prim_mst` run on at least two stadiums. -/
theorem prim_mst_run (s0 : String) (t0 : String) (tl : List String) (d : WTable) :
    ∃ cost mst visitedF heapF,
      prim_mst (s0 :: t0 :: tl) d = some (cost, mst) ∧
      cost = edgesWeight d mst ∧
      PrimInv (s0 :: t0 :: tl) d s0 visitedF heapF mst cost ∧
      ((s0 :: t0 :: tl).length - 1 ≤ mst.length ∨ heapF = []) := by
  obtain ⟨res, hres⟩ := prim_mst_some (s0 :: t0 :: tl) d (by simp)
  have h2 : ¬ (s0 :: t0 :: tl).length - 1 ≤ 0 := by
    simp only [List.length_cons]
    omega
  have hres' : primLoopF (s0 :: t0 :: tl) d
      ((((s0 :: t0 :: tl).length + 1) * ((s0 :: t0 :: tl).length + 1)) + 1)
      [s0] (pushNeighbors (s0 :: t0 :: tl) d [s0] s0 []) [] 0 = some res := by
    rw [← primLoopF_start s0 (t0 :: tl) d h2, ← prim_mst_eq_loop]
    exact hres
  obtain ⟨visitedF, heapF, hcost, hinvF, hdisj⟩ :=
    primLoopF_spec (s0 :: t0 :: tl) d s0 _ _ _ _ _ res (primInv_start s0 (t0 :: tl) d) hres'
  exact ⟨res.1, res.2, visitedF, heapF, by rw [hres], hcost, hinvF, hdisj⟩

/-! ### Orientation congruence -/

theorem pushStep_norm (d : WTable) (vis : List String) (dst : String)
    (h : List Entry) (nb : String) :
    pushStep d vis dst h nb =
      if vis.contains nb = true then h
      else
        match edgeWeight d dst nb with
        | some w => h ++ [(w, dst, nb)]
        | none => h := by
  rcases pushStep_cases d vis dst h nb with ⟨hv, h1⟩ | ⟨hv, hw, h1⟩ | ⟨hv, w, hw, h1⟩
  · rw [h1, if_pos hv]
  · rw [h1, if_neg (by rw [hv]; simp), hw]
  · rw [h1, if_neg (by rw [hv]; simp), hw]

theorem pushStep_congr {d1 d2 : WTable}
    (hew : ∀ a b, edgeWeight d1 a b = edgeWeight d2 a b) (vis : List String)
    (dst : String) : pushStep d1 vis dst = pushStep d2 vis dst := by
  funext h nb
  rw [pushStep_norm d1, pushStep_norm d2, hew]

theorem primLoopF_congr (st : List String) {d1 d2 : WTable}
    (hew : ∀ a b, edgeWeight d1 a b = edgeWeight d2 a b) :
    ∀ (fuel : Nat) (visited : List String) (heap : List Entry)
      (mst : List (String × String)) (cost : ℚ),
      primLoopF st d1 fuel visited heap mst cost =
        primLoopF st d2 fuel visited heap mst cost := by
  intro fuel
  induction fuel with
  | zero => intro _ _ _ _; rfl
  | succ fuel ih =>
    intro visited heap mst cost
    rw [primLoopF]
    conv_rhs => rw [primLoopF]
    by_cases hc : st.length - 1 ≤ mst.length
    · rw [if_pos hc, if_pos hc]
    · rw [if_neg hc, if_neg hc]
      cases hp : popMin heap with
      | none => rfl
      | some pr =>
        obtain ⟨e, rest⟩ := pr
        dsimp only
        by_cases hv : visited.contains e.2.2 = true
        · rw [if_pos hv, if_pos hv]
          exact ih _ _ _ _
        · rw [if_neg hv, if_neg hv]
          rw [pushNeighbors, pushNeighbors, pushStep_congr hew]
          exact ih _ _ _ _

theorem prim_mst_congr {d1 d2 : WTable}
    (hew : ∀ a b, edgeWeight d1 a b = edgeWeight d2 a b) (st : List String) :
    prim_mst st d1 = prim_mst st d2 := by
  cases st with
  | nil => rfl
  | cons s0 tl =>
    rw [prim_mst_eq_loop, prim_mst_eq_loop]
    exact primLoopF_congr _ hew _ _ _ _ _

theorem wlookup_append (pre rest : WTable) (k : String × String) :
    wlookup (pre ++ rest) k =
      match wlookup pre k with
      | some w => some w
      | none => wlookup rest k := by
  induction pre with
  | nil => rfl
  | cons p pre' ih =>
    obtain ⟨k0, w0⟩ := p
    rw [List.cons_append, wlookup, wlookup]
    by_cases hk : k0 = k
    · rw [if_pos hk, if_pos hk]
    · rw [if_neg hk, if_neg hk, ih]

theorem wlookup_none_of_keys (k : String × String) :
    ∀ (t : WTable), (∀ p ∈ t, p.1 ≠ k) → wlookup t k = none := by
  intro t
  induction t with
  | nil => intro _; rfl
  | cons p t' ih =>
    intro h
    obtain ⟨k0, w0⟩ := p
    rw [wlookup, if_neg (h (k0, w0) (List.mem_cons_self _ _)), ih]
    intro p' hp'
    exact h p' (List.mem_cons_of_mem _ hp')

theorem edgeWeight_flip (pre post : WTable) (a b : String) (w : ℚ)
    (hnodup : ((pre ++ ((a, b), w) :: post).map Prod.fst).Nodup)
    (ho : OneOrientation (pre ++ ((a, b), w) :: post)) :
    ∀ x y, edgeWeight (pre ++ ((a, b), w) :: post) x y =
      edgeWeight (pre ++ ((b, a), w) :: post) x y := by
  by_cases hab : a = b
  · subst hab
    intro x y
    rfl
  · have hmid : ((a, b) : String × String) ≠ (b, a) := by
      intro h
      injection h with h1 h2
      exact hab h1
    have hkeys : ∀ p ∈ pre, p.1 ≠ (a, b) := by
      intro p hp heq
      rw [List.map_append, List.map_cons] at hnodup
      obtain ⟨_, _, hdisj⟩ := List.nodup_append.mp hnodup
      exact hdisj (List.mem_map.mpr ⟨p, hp, rfl⟩) (by rw [heq]; exact List.mem_cons_self _ _)
    have hkeyspost : ∀ p ∈ post, p.1 ≠ (a, b) := by
      intro p hp heq
      rw [List.map_append, List.map_cons] at hnodup
      obtain ⟨_, hnd2, _⟩ := List.nodup_append.mp hnodup
      rw [List.nodup_cons] at hnd2
      exact hnd2.1 (List.mem_map.mpr ⟨p, hp, heq⟩)
    have hpre_ab : wlookup pre (a, b) = none := wlookup_none_of_keys _ pre hkeys
    have hpost_ab : wlookup post (a, b) = none := wlookup_none_of_keys _ post hkeyspost
    have ht1_ab : wlookup (pre ++ ((a, b), w) :: post) (a, b) = some w := by
      rw [wlookup_append, hpre_ab]
      simp [wlookup]
    have hk1 : hasKey (pre ++ ((a, b), w) :: post) (a, b) = true := by
      rw [hasKey, ht1_ab]
      rfl
    have hk2 : hasKey (pre ++ ((a, b), w) :: post) (b, a) = false := ho a b hab hk1
    have ht1_ba : wlookup (pre ++ ((a, b), w) :: post) (b, a) = none := by
      cases h : wlookup (pre ++ ((a, b), w) :: post) (b, a) with
      | none => rfl
      | some w' => rw [hasKey, h] at hk2; cases hk2
    have hpre_ba : wlookup pre (b, a) = none := by
      rw [wlookup_append] at ht1_ba
      cases h : wlookup pre (b, a) with
      | none => rfl
      | some w' => rw [h] at ht1_ba; cases ht1_ba
    have hpost_ba : wlookup post (b, a) = none := by
      rw [wlookup_append, hpre_ba] at ht1_ba
      simp only [wlookup, if_neg hmid] at ht1_ba
      exact ht1_ba
    have ht2_ba : wlookup (pre ++ ((b, a), w) :: post) (b, a) = some w := by
      rw [wlookup_append, hpre_ba]
      simp [wlookup]
    have ht2_ab : wlookup (pre ++ ((b, a), w) :: post) (a, b) = none := by
      rw [wlookup_append, hpre_ab]
      simp only [wlookup, if_neg (Ne.symm hmid)]
      exact hpost_ab
    have hother : ∀ k, k ≠ ((a, b) : String × String) → k ≠ (b, a) →
        wlookup (pre ++ ((a, b), w) :: post) k = wlookup (pre ++ ((b, a), w) :: post) k := by
      intro k hk1' hk2'
      rw [wlookup_append, wlookup_append]
      cases h : wlookup pre k with
      | some w' => rfl
      | none =>
        simp only [wlookup]
        rw [if_neg (fun h : (a, b) = k => hk1' h.symm),
          if_neg (fun h : (b, a) = k => hk2' h.symm)]
    intro x y
    by_cases h1 : ((x, y) : String × String) = (a, b)
    · obtain ⟨rfl, rfl⟩ : x = a ∧ y = b := by
        injection h1 with ha hb
        exact ⟨ha, hb⟩
      rw [edgeWeight, edgeWeight, ht1_ab, ht2_ab, ht2_ba]
    · by_cases h2 : ((x, y) : String × String) = (b, a)
      · obtain ⟨rfl, rfl⟩ : x = b ∧ y = a := by
          injection h2 with ha hb
          exact ⟨ha, hb⟩
        rw [edgeWeight, edgeWeight, ht1_ba, ht1_ab, ht2_ba]
      · have h3 : ((y, x) : String × String) ≠ (a, b) := by
          intro h
          injection h with ha hb
          exact h2 (by rw [ha, hb])
        have h4 : ((y, x) : String × String) ≠ (b, a) := by
          intro h
          injection h with ha hb
          exact h1 (by rw [ha, hb])
        rw [edgeWeight, edgeWeight, hother (x, y) h1 h2, hother (y, x) h3 h4]

/-- An empty table admits no nontrivial reachability. -/
theorem reach_nil_table {V : List String} {x y : String} (h : Reach [] V x y) : x = y := by
  induction h with
  | refl => rfl
  | tail _ _ hadj _ =>
    rcases hadj with h' | h' <;> (rw [hasKey] at h'; cases h')

/-- A one-entry table on a proper pair holds one orientation only. -/
theorem oneOrientation_single {a b : String} (w : ℚ) (hab : a ≠ b) :
    OneOrientation [((a, b), w)] := by
  intro x y _ hk
  rw [hasKey, wlookup] at hk
  by_cases hx : ((a, b) : String × String) = (x, y)
  · have h1 : a = x := congrArg Prod.fst hx
    have h2 : b = y := congrArg Prod.snd hx
    rw [hasKey, wlookup, ← h1, ← h2,
      if_neg (fun h : ((a, b) : String × String) = (b, a) => by
        injection h with ha hb; exact hab ha)]
    rfl
  · rw [if_neg hx] at hk
    cases hk

/-! ### The claims about `prim_mst` -/

/-- C2 (amended: the vertex list must additionally be duplicate-free):
for every non-empty, duplicate-free vertex list and every weight table
with non-negative weights, at most one orientation per unordered pair,
whose edges connect all vertices, `prim_mst` returns exactly
`len(vertices) - 1` edges, a total cost equal to the sum of the weights
of the returned edges, and no spanning tree weighs strictly less. -/
theorem C2_theorem (st : List String) (d : WTable)
    (hne : st ≠ []) (hnodup : st.Nodup)
    (hnn : NonnegWeights d) (ho : OneOrientation d)
    (hconn : ∀ u ∈ st, ∀ v ∈ st, Reach d st u v) :
    ∃ cost mst, prim_mst st d = some (cost, mst) ∧
      mst.length + 1 = st.length ∧
      cost = edgesWeight d mst ∧
      ∀ E, IsSpanningTree d st E → cost ≤ edgesWeight d E := by
  rcases st with _ | ⟨s0, _ | ⟨t0, tl⟩⟩
  · exact absurd rfl hne
  · refine ⟨0, [], prim_mst_singleton s0 d, rfl, rfl, ?_⟩
    intro E _
    exact edgesWeight_nonneg hnn E
  · obtain ⟨cost, mst, visitedF, heapF, hrun, hcost, hinv, hdisj⟩ := prim_mst_run s0 t0 tl d
    have hlen1 : visitedF.length ≤ (s0 :: t0 :: tl).length :=
      (hinv.vis_nodup.subperm hinv.vis_sub).length_le
    have hmc := hinv.mst_count
    have hfull : (s0 :: t0 :: tl).length ≤ visitedF.length := by
      rcases hdisj with hcnt | hempty
      · omega
      · have hclosed : ∀ u ∈ visitedF, ∀ z ∈ s0 :: t0 :: tl, z ∉ visitedF →
            ¬ adjKey d u z := by
          intro u hu z hz hzn hadj
          obtain ⟨c, hc⟩ := hinv.complete u hu z hz hzn hadj
          rw [hempty] at hc
          cases hc
        have hall : ∀ v ∈ s0 :: t0 :: tl, v ∈ visitedF := by
          intro v hv
          exact reach_closed hinv.s0_mem hclosed v
            (hconn s0 (List.mem_cons_self _ _) v hv)
        exact (hnodup.subperm hall).length_le
    refine ⟨cost, mst, hrun, by omega, hcost, ?_⟩
    intro E hE
    obtain ⟨T, extra, _, hperm, hle⟩ := hinv.promising ho E hE.1
    calc cost = edgesWeight d mst := hcost
      _ ≤ edgesWeight d (mst ++ extra) := edgesWeight_prefix_le hnn mst extra
      _ = edgesWeight d T := (edgesWeight_perm d hperm).symm
      _ ≤ edgesWeight d E := hle

/-- C2 as literally stated fails without a duplicate-freeness
hypothesis: the two-entry vertex list `["a", "a"]` with the empty table
is connected (every listed vertex is reachable from every other), the
table is non-negative and one-oriented, yet `prim_mst` returns zero
edges where the claim demands `len(vertices) - 1 = 1`. -/
theorem C2_counterexample :
    NonnegWeights [] ∧ OneOrientation [] ∧
    (∀ u ∈ (["a", "a"] : List String), ∀ v ∈ (["a", "a"] : List String),
      Reach [] ["a", "a"] u v) ∧
    ∃ cost mst, prim_mst ["a", "a"] [] = some (cost, mst) ∧
      ¬ mst.length + 1 = (["a", "a"] : List String).length := by
  refine ⟨?_, ?_, ?_, 0, [], by with_unfolding_all decide, by decide⟩
  · intro p hp
    cases hp
  · intro x y _ h
    rw [hasKey] at h
    cases h
  · intro u hu v hv
    have hu' : u = "a" := by
      rcases List.mem_cons.mp hu with h | h
      · exact h
      · exact List.mem_singleton.mp h
    have hv' : v = "a" := by
      rcases List.mem_cons.mp hv with h | h
      · exact h
      · exact List.mem_singleton.mp h
    rw [hu', hv']
    exact Reach.refl "a"

/-- Witness for the amended C2 on the concrete input `["x", "y"]` with
the single edge `("x", "y") ↦ 1`. -/
theorem C2_witness :
    ∃ cost mst, prim_mst ["x", "y"] [(("x", "y"), 1)] = some (cost, mst) ∧
      mst.length + 1 = (["x", "y"] : List String).length ∧
      cost = edgesWeight [(("x", "y"), 1)] mst ∧
      ∀ E, IsSpanningTree [(("x", "y"), 1)] ["x", "y"] E →
        cost ≤ edgesWeight [(("x", "y"), 1)] E := by
  have hnn : NonnegWeights [(("x", "y"), 1)] := by
    intro p hp
    rw [List.mem_singleton] at hp
    rw [hp]
    norm_num
  have ho : OneOrientation [(("x", "y"), 1)] := oneOrientation_single 1 (by decide)
  have hconn : ∀ u ∈ (["x", "y"] : List String), ∀ v ∈ (["x", "y"] : List String),
      Reach [(("x", "y"), 1)] ["x", "y"] u v := by
    have hxy : Reach [(("x", "y"), 1)] ["x", "y"] "x" "y" :=
      Reach.tail (Reach.refl "x") (by decide) (Or.inl (by with_unfolding_all decide))
    have hyx : Reach [(("x", "y"), 1)] ["x", "y"] "y" "x" :=
      Reach.tail (Reach.refl "y") (by decide) (Or.inr (by with_unfolding_all decide))
    intro u hu v hv
    rcases List.mem_cons.mp hu with h | h
    · rcases List.mem_cons.mp hv with h' | h'
      · rw [h, h']
        exact Reach.refl "x"
      · rw [h, List.mem_singleton.mp h']
        exact hxy
    · rcases List.mem_cons.mp hv with h' | h'
      · rw [List.mem_singleton.mp h, h']
        exact hyx
      · rw [List.mem_singleton.mp h, List.mem_singleton.mp h']
        exact Reach.refl "y"
  exact C2_theorem ["x", "y"] [(("x", "y"), 1)] (by simp) (by decide) hnn ho hconn

/-- C7: for every non-empty vertex list and weight table under which
some listed vertex is unreachable from the first vertex, `prim_mst`
still returns a value: its edges have both endpoints reachable from the
first vertex, every reachable listed vertex is covered (it is the start
or an endpoint of a returned edge), and the returned edge count is
strictly below `len(vertices) - 1`. -/
theorem C7_theorem (s0 : String) (tl : List String) (d : WTable) (x : String)
    (hx : x ∈ s0 :: tl) (hnr : ¬ Reach d (s0 :: tl) s0 x) :
    ∃ cost mst, prim_mst (s0 :: tl) d = some (cost, mst) ∧
      (∀ e ∈ mst, Reach d (s0 :: tl) s0 e.1 ∧ Reach d (s0 :: tl) s0 e.2) ∧
      (∀ v ∈ s0 :: tl, Reach d (s0 :: tl) s0 v →
        v = s0 ∨ ∃ e ∈ mst, v = e.1 ∨ v = e.2) ∧
      mst.length < (s0 :: tl).length - 1 := by
  rcases tl with _ | ⟨t0, tl⟩
  · rw [List.mem_singleton] at hx
    subst hx
    exact absurd (Reach.refl x) hnr
  · obtain ⟨cost, mst, visitedF, heapF, hrun, hcost, hinv, hdisj⟩ := prim_mst_run s0 t0 tl d
    have hxnv : x ∉ visitedF := fun hxv => hnr (hinv.vis_reach x hxv)
    have hnodup' : (x :: visitedF).Nodup := List.nodup_cons.mpr ⟨hxnv, hinv.vis_nodup⟩
    have hsub : x :: visitedF ⊆ s0 :: t0 :: tl := List.cons_subset.mpr ⟨hx, hinv.vis_sub⟩
    have hmc := hinv.mst_count
    have hlenN : visitedF.length + 1 ≤ tl.length + 2 := by
      have h := (hnodup'.subperm hsub).length_le
      simp only [List.length_cons] at h
      omega
    have hsmall : mst.length < (s0 :: t0 :: tl).length - 1 := by
      simp only [List.length_cons]
      omega
    have hempty : heapF = [] := by
      rcases hdisj with hcnt | h
      · exfalso
        simp only [List.length_cons] at hcnt
        omega
      · exact h
    have hclosed : ∀ u ∈ visitedF, ∀ z ∈ s0 :: t0 :: tl, z ∉ visitedF →
        ¬ adjKey d u z := by
      intro u hu z hz hzn hadj
      obtain ⟨c, hc⟩ := hinv.complete u hu z hz hzn hadj
      rw [hempty] at hc
      cases hc
    refine ⟨cost, mst, hrun, ?_, ?_, hsmall⟩
    · intro e he
      obtain ⟨h1, h2, _⟩ := hinv.mst_ends e he
      exact ⟨hinv.vis_reach e.1 h1, hinv.vis_reach e.2 h2⟩
    · intro v _ hreach
      exact hinv.vis_cover v (reach_closed hinv.s0_mem hclosed v hreach)

/-- Witness for C7 on the concrete input `["a", "b"]` with the empty
table, under which `"b"` is unreachable from `"a"`. -/
theorem C7_witness :
    ("b" ∈ (["a", "b"] : List String)) ∧ ¬ Reach [] ["a", "b"] "a" "b" ∧
    ∃ cost mst, prim_mst ["a", "b"] [] = some (cost, mst) ∧
      (∀ e ∈ mst, Reach [] ["a", "b"] "a" e.1 ∧ Reach [] ["a", "b"] "a" e.2) ∧
      (∀ v ∈ (["a", "b"] : List String), Reach [] ["a", "b"] "a" v →
        v = "a" ∨ ∃ e ∈ mst, v = e.1 ∨ v = e.2) ∧
      mst.length < (["a", "b"] : List String).length - 1 := by
  have hnr : ¬ Reach [] ["a", "b"] "a" "b" := fun h =>
    absurd (reach_nil_table h) (by decide)
  exact ⟨by decide, hnr, C7_theorem "a" ["b"] [] "b" (by decide) hnr⟩

/-- C8: in a weight table with duplicate-free keys holding at most one
orientation of each unordered pair, re-keying one entry from `(a, b)` to
`(b, a)` (same weight) leaves `prim_mst` unchanged on every vertex
list, because the lookup tries both orientations. -/
theorem C8_theorem (pre post : WTable) (a b : String) (w : ℚ)
    (hnodup : ((pre ++ ((a, b), w) :: post).map Prod.fst).Nodup)
    (ho : OneOrientation (pre ++ ((a, b), w) :: post)) (st : List String) :
    prim_mst st (pre ++ ((a, b), w) :: post) =
      prim_mst st (pre ++ ((b, a), w) :: post) :=
  prim_mst_congr (edgeWeight_flip pre post a b w hnodup ho) st

/-- Witness for C8: flipping the single entry of the one-edge table on
`["x", "y"]`. -/
theorem C8_witness :
    (([(("x", "y"), (1 : ℚ))] : WTable).map Prod.fst).Nodup ∧
    OneOrientation [(("x", "y"), 1)] ∧
    prim_mst ["x", "y"] [(("x", "y"), 1)] = prim_mst ["x", "y"] [(("y", "x"), 1)] := by
  have ho : OneOrientation [(("x", "y"), (1 : ℚ))] := oneOrientation_single 1 (by decide)
  exact ⟨by simp, ho, C8_theorem [] [] "x" "y" 1 (by simp) ho ["x", "y"]⟩

set_option maxHeartbeats 2000000 in
/-- C9: on the five stadiums `s1 … s5` and the fixed reference distance
table, `build_stadium_network` yields total cost exactly 30 with
exactly 4 tree edges. -/
theorem C9_theorem :
    ∃ mst, build_stadium_network ["s1", "s2", "s3", "s4", "s5"] = some (30, mst) ∧
      mst.length = 4 :=
  ⟨[("s1", "s2"), ("s1", "s3"), ("s3", "s5"), ("s3", "s4")],
    by with_unfolding_all decide, rfl⟩

/-- C10: `prim_mst` on the empty vertex list is undefined (the Python
code raises `IndexError` seeding the heap, modelled by `none`), while
on every non-empty vertex list whose table keys mention only listed
vertices it terminates with a well-defined pair (in this model all
dictionary accesses are total, so definedness is exactly totality of
the loop). -/
theorem C10_theorem (d0 : WTable) (st : List String) (d : WTable)
    (hne : st ≠ []) (_hkeys : ∀ p ∈ d, p.1.1 ∈ st ∧ p.1.2 ∈ st) :
    prim_mst [] d0 = none ∧ ∃ res, prim_mst st d = some res :=
  ⟨rfl, prim_mst_some st d hne⟩

/-! ### Scheduler: distinctness of the generated stadium ids -/

theorem toDigitsCore_eq_digits :
    ∀ (f n : Nat) (acc : List Char), 0 < n → n < f →
      Nat.toDigitsCore 10 f n acc =
        ((Nat.digits 10 n).map Nat.digitChar).reverse ++ acc := by
  intro f
  induction f with
  | zero => intro n acc _ h; omega
  | succ f ih =>
    intro n acc hn hf
    rw [Nat.toDigitsCore]
    by_cases h0 : n / 10 = 0
    · rw [if_pos h0, Nat.digits_def' (by norm_num) hn, h0, Nat.digits_zero]
      simp
    · rw [if_neg h0]
      have hlt : n / 10 < n := Nat.div_lt_self hn (by norm_num)
      rw [ih (n / 10) _ (Nat.pos_of_ne_zero h0) (by omega),
        Nat.digits_def' (by norm_num) hn, List.map_cons, List.reverse_cons,
        List.append_assoc]
      rfl

theorem digitChar_inj_lt :
    ∀ a < 10, ∀ b < 10, Nat.digitChar a = Nat.digitChar b → a = b := by decide

theorem map_digitChar_inj :
    ∀ (l1 l2 : List Nat), (∀ x ∈ l1, x < 10) → (∀ x ∈ l2, x < 10) →
      l1.map Nat.digitChar = l2.map Nat.digitChar → l1 = l2 := by
  intro l1
  induction l1 with
  | nil =>
    intro l2 _ _ h
    cases l2 with
    | nil => rfl
    | cons y ys => cases h
  | cons x xs ih =>
    intro l2 h1 h2 h
    cases l2 with
    | nil => cases h
    | cons y ys =>
      rw [List.map_cons, List.map_cons] at h
      injection h with hh ht
      rw [digitChar_inj_lt x (h1 x (List.mem_cons_self _ _))
          y (h2 y (List.mem_cons_self _ _)) hh,
        ih ys (fun z hz => h1 z (List.mem_cons_of_mem _ hz))
          (fun z hz => h2 z (List.mem_cons_of_mem _ hz)) ht]

theorem repr_inj_pos {m n : Nat} (hm : 0 < m) (hn : 0 < n)
    (h : Nat.repr m = Nat.repr n) : m = n := by
  rw [Nat.repr, Nat.repr, Nat.toDigits, Nat.toDigits,
    toDigitsCore_eq_digits (m + 1) m [] hm (by omega),
    toDigitsCore_eq_digits (n + 1) n [] hn (by omega),
    List.asString_inj, List.append_nil, List.append_nil] at h
  have h3 := map_digitChar_inj _ _
    (fun x hx => Nat.digits_lt_base (by norm_num) hx)
    (fun x hx => Nat.digits_lt_base (by norm_num) hx)
    (List.reverse_injective h)
  calc m = Nat.ofDigits 10 (Nat.digits 10 m) := (Nat.ofDigits_digits 10 m).symm
    _ = Nat.ofDigits 10 (Nat.digits 10 n) := by rw [h3]
    _ = n := Nat.ofDigits_digits 10 n

theorem string_append_left_cancel {p x y : String} (h : p ++ x = p ++ y) : x = y := by
  have hd : p.data ++ x.data = p.data ++ y.data := congrArg String.data h
  exact String.toList_inj.mp (List.append_cancel_left hd)

theorem mkStadiums_length (v : Nat) : (mkStadiums v).length = v := by
  rw [mkStadiums, List.length_map, List.length_range]

theorem stadiumIds_length (v : Nat) : (stadiumIds v).length = v := by
  rw [stadiumIds, List.length_map, mkStadiums_length]

theorem mkStadiums_ids_nodup (v : Nat) : ((mkStadiums v).map Stadium.id).Nodup := by
  rw [mkStadiums, List.map_map]
  apply List.Nodup.map ?_ (List.nodup_range v)
  intro a b hab
  simp only [Function.comp_apply] at hab
  have h2 := repr_inj_pos (Nat.succ_pos a) (Nat.succ_pos b)
    (string_append_left_cancel hab)
  omega

/-! ### Scheduler: `k_permutations` and `generate_assignments` -/

theorem picks_length {α : Type} : ∀ (arr : List α), (picks arr).length = arr.length := by
  intro arr
  induction arr with
  | nil => rfl
  | cons x xs ih => simp [picks, ih]

theorem picks_perm {α : Type} :
    ∀ (arr : List α), ∀ p ∈ picks arr, arr.Perm (p.1 :: p.2) := by
  intro arr
  induction arr with
  | nil => intro p hp; cases hp
  | cons x xs ih =>
    intro p hp
    rcases List.mem_cons.mp hp with h | h
    · rw [h]
    · obtain ⟨q, hq, hmap⟩ := List.mem_map.mp h
      rw [← hmap]
      exact ((ih q hq).cons x).trans (List.Perm.swap q.1 x q.2)

theorem sum_map_eq_length_mul {α : Type} (l : List α) (f : α → Nat) (c : Nat)
    (h : ∀ x ∈ l, f x = c) : (l.map f).sum = l.length * c := by
  induction l with
  | nil => simp
  | cons x xs ih =>
    rw [List.map_cons, List.sum_cons, ih (fun y hy => h y (List.mem_cons_of_mem _ hy)),
      h x (List.mem_cons_self _ _), List.length_cons]
    ring

theorem k_permutations_length {α : Type} :
    ∀ (k : Nat) (arr : List α),
      (k_permutations arr k).length = arr.length.descFactorial k := by
  intro k
  induction k with
  | zero => intro arr; rfl
  | succ k ih =>
    intro arr
    rw [k_permutations, List.flatMap_def, List.length_flatten, List.map_map]
    have hconst : ∀ p ∈ picks arr,
        (List.length ∘ fun p : α × List α =>
          (k_permutations p.2 k).map (fun rest => p.1 :: rest)) p
          = (arr.length - 1).descFactorial k := by
      intro p hp
      have hlen := (picks_perm arr p hp).length_eq
      rw [List.length_cons] at hlen
      simp only [Function.comp_apply, List.length_map, ih]
      congr 1
      omega
    rw [sum_map_eq_length_mul _ _ _ hconst, picks_length]
    cases harr : arr.length with
    | zero => simp
    | succ m =>
      rw [Nat.succ_descFactorial_succ]
      congr 1

theorem k_permutations_mem {α : Type} :
    ∀ (k : Nat) (arr perm : List α), perm ∈ k_permutations arr k →
      perm.length = k ∧ List.Subperm perm arr := by
  intro k
  induction k with
  | zero =>
    intro arr perm hp
    rw [k_permutations, List.mem_singleton] at hp
    subst hp
    exact ⟨rfl, List.nil_subperm⟩
  | succ k ih =>
    intro arr perm hp
    rw [k_permutations, List.mem_flatMap] at hp
    obtain ⟨p, hpk, hmem⟩ := hp
    obtain ⟨rest, hrest, heq⟩ := List.mem_map.mp hmem
    obtain ⟨hlen, hsub⟩ := ih p.2 rest hrest
    obtain ⟨l, hlp, hls⟩ := hsub
    subst heq
    refine ⟨by rw [List.length_cons, hlen], ?_⟩
    exact List.Subperm.trans ⟨p.1 :: l, hlp.cons p.1, hls.cons₂ p.1⟩
      (picks_perm arr p hpk).symm.subperm

theorem subperm_nodup {α : Type} {l₁ l₂ : List α} (h : List.Subperm l₁ l₂)
    (hn : l₂.Nodup) : l₁.Nodup := by
  obtain ⟨l, hlp, hls⟩ := h
  exact (hls.nodup hn).perm hlp

theorem subperm_map {α β : Type} (f : α → β) {l₁ l₂ : List α}
    (h : List.Subperm l₁ l₂) : List.Subperm (l₁.map f) (l₂.map f) := by
  obtain ⟨l, hlp, hls⟩ := h
  exact ⟨l.map f, hlp.map f, hls.map f⟩

theorem dictInsert_fresh : ∀ (d : DaySchedule) (k : String) (v : MatchT),
    k ∉ d.map Prod.fst → dictInsert d k v = d ++ [(k, v)] := by
  intro d
  induction d with
  | nil => intro k v _; rfl
  | cons p rest ih =>
    intro k v hk
    obtain ⟨k0, v0⟩ := p
    rw [List.map_cons, List.mem_cons] at hk
    push_neg at hk
    rw [dictInsert, if_neg (fun h => hk.1 h.symm), List.cons_append, ih k v hk.2]

theorem foldl_dictInsert_fresh :
    ∀ (ps : List (String × MatchT)) (d : DaySchedule),
      (∀ k ∈ ps.map Prod.fst, k ∉ d.map Prod.fst) → (ps.map Prod.fst).Nodup →
      ps.foldl (fun acc p => dictInsert acc p.1 p.2) d = d ++ ps := by
  intro ps
  induction ps with
  | nil => intro d _ _; simp
  | cons q ps ih =>
    intro d hfresh hnd
    rw [List.map_cons, List.nodup_cons] at hnd
    rw [List.foldl_cons, dictInsert_fresh d q.1 q.2
      (hfresh q.1 (by rw [List.map_cons]; exact List.mem_cons_self _ _))]
    rw [ih (d ++ [(q.1, q.2)]) ?_ hnd.2]
    · rw [List.append_assoc]
      simp
    · intro k hk
      rw [List.map_append, List.mem_append]
      rintro (h | h)
      · exact hfresh k (by rw [List.map_cons]; exact List.mem_cons_of_mem _ hk) h
      · rcases List.mem_cons.mp h with h' | h'
        · exact hnd.1 (h' ▸ hk)
        · simp at h'

theorem buildDay_eq_zip (block : List MatchT) (perm : List Stadium)
    (hlen : perm.length = block.length) (hnd : (perm.map Stadium.id).Nodup) :
    buildDay block perm = (perm.map Stadium.id).zip block := by
  have hps : block.enum.map (fun p => ((perm.getD p.1 ⟨"", ""⟩).id, p.2))
      = (perm.map Stadium.id).zip block := by
    apply List.ext_getElem
    · simp [hlen]
    · intro i h1 h2
      rw [List.getElem_map, List.getElem_enum, List.getElem_zip, List.getElem_map]
      have hib : i < block.length := by simpa using h1
      rw [List.getD_eq_getElem perm ⟨"", ""⟩ (by omega)]
  have hstart : buildDay block perm =
      (block.enum.map (fun p => ((perm.getD p.1 ⟨"", ""⟩).id, p.2))).foldl
        (fun acc q => dictInsert acc q.1 q.2) [] :=
    (List.foldl_map (fun p : Nat × MatchT => ((perm.getD p.1 ⟨"", ""⟩).id, p.2))
      (fun acc q => dictInsert acc q.1 q.2) block.enum []).symm
  rw [hstart, hps, foldl_dictInsert_fresh _ [] (by intro k _ hk; cases hk) ?_,
    List.nil_append]
  rw [List.map_fst_zip _ _ (by rw [List.length_map]; omega)]
  exact hnd

theorem generate_assignments_length (block : List MatchT) (st : List Stadium)
    (h : block.length ≤ st.length) :
    (generate_assignments block st).length = st.length.descFactorial block.length := by
  rw [generate_assignments, if_neg (by omega), List.length_map, k_permutations_length]

theorem generate_assignments_empty_iff (block : List MatchT) (st : List Stadium) :
    generate_assignments block st = [] ↔ st.length < block.length := by
  constructor
  · intro h
    by_contra hlt
    push_neg at hlt
    have h1 := generate_assignments_length block st hlt
    rw [h, List.length_nil] at h1
    have h2 := Nat.descFactorial_eq_zero_iff_lt.mp h1.symm
    omega
  · intro h
    rw [generate_assignments, if_pos (by omega)]

theorem generate_assignments_mem (block : List MatchT) (st : List Stadium)
    (hnd : (st.map Stadium.id).Nodup) (a : DaySchedule)
    (ha : a ∈ generate_assignments block st) :
    ∃ perm ∈ k_permutations st block.length,
      a = (perm.map Stadium.id).zip block := by
  have hne : generate_assignments block st ≠ [] := List.ne_nil_of_mem ha
  have hle : block.length ≤ st.length := by
    by_contra h
    exact hne ((generate_assignments_empty_iff block st).mpr (by omega))
  rw [generate_assignments, if_neg (by omega)] at ha
  obtain ⟨perm, hperm, heq⟩ := List.mem_map.mp ha
  obtain ⟨hlen, hsub⟩ := k_permutations_mem block.length st perm hperm
  refine ⟨perm, hperm, ?_⟩
  rw [← heq, buildDay_eq_zip block perm hlen
    (subperm_nodup (subperm_map Stadium.id hsub) hnd)]

theorem generate_assignments_day (block : List MatchT) (st : List Stadium)
    (hnd : (st.map Stadium.id).Nodup) (a : DaySchedule)
    (ha : a ∈ generate_assignments block st) :
    a.map Prod.snd = block ∧ (a.map Prod.fst).Nodup ∧
      ∀ p ∈ a, p.1 ∈ st.map Stadium.id := by
  obtain ⟨perm, hperm, heq⟩ := generate_assignments_mem block st hnd a ha
  obtain ⟨hlen, hsub⟩ := k_permutations_mem block.length st perm hperm
  have hmfst : a.map Prod.fst = perm.map Stadium.id := by
    rw [heq, List.map_fst_zip _ _ (by rw [List.length_map]; omega)]
  refine ⟨?_, ?_, ?_⟩
  · rw [heq, List.map_snd_zip _ _ (by rw [List.length_map]; omega)]
  · rw [hmfst]
    exact subperm_nodup (subperm_map Stadium.id hsub) hnd
  · intro p hp
    have h1 : p.1 ∈ a.map Prod.fst := List.mem_map_of_mem Prod.fst hp
    rw [hmfst] at h1
    exact (subperm_map Stadium.id hsub).subset h1

/-! ### Scheduler: the `get_optimizing_solution` fold -/

theorem updateBest_spec (b : Option ScheduleT) (c : ScheduleT) :
    ∃ s, updateBest b c = some s ∧ s.length ≤ c.length ∧
      (∀ s0, b = some s0 → s.length ≤ s0.length) ∧ (b = some s ∨ s = c) := by
  cases b with
  | none =>
    refine ⟨c, rfl, le_refl _, ?_, Or.inr rfl⟩
    intro s0 h
    cases h
  | some b0 =>
    by_cases h : c.length < b0.length
    · refine ⟨c, ?_, le_refl _, ?_, Or.inr rfl⟩
      · rw [updateBest, if_pos h]
      · intro s0 hs0
        injection hs0 with hs0
        rw [← hs0]
        exact le_of_lt h
    · refine ⟨b0, ?_, by omega, ?_, Or.inl rfl⟩
      · rw [updateBest, if_neg h]
      · intro s0 hs0
        injection hs0 with hs0
        rw [hs0]

theorem ubFold_spec (r : ScheduleT) :
    ∀ (A : List DaySchedule) (b : Option ScheduleT),
      (∀ s, A.foldl (fun b a => updateBest b (a :: r)) b = some s →
        b = some s ∨ ∃ a ∈ A, s = a :: r) ∧
      (∀ s0, b = some s0 →
        ∃ s, A.foldl (fun b a => updateBest b (a :: r)) b = some s ∧
          s.length ≤ s0.length) ∧
      (∀ a ∈ A,
        ∃ s, A.foldl (fun b a => updateBest b (a :: r)) b = some s ∧
          s.length ≤ r.length + 1) := by
  intro A
  induction A with
  | nil =>
    intro b
    refine ⟨fun s h => Or.inl h, ?_, ?_⟩
    · intro s0 h
      exact ⟨s0, h, le_refl _⟩
    · intro a ha
      cases ha
  | cons a0 A ih =>
    intro b
    obtain ⟨s1, hs1, hlen1, hmono1, hsrc1⟩ := updateBest_spec b (a0 :: r)
    rw [List.length_cons] at hlen1
    refine ⟨?_, ?_, ?_⟩
    · intro s h
      rw [List.foldl_cons] at h
      rcases (ih (updateBest b (a0 :: r))).1 s h with h' | ⟨a, ha, heq⟩
      · rw [hs1] at h'
        injection h' with h'
        rcases hsrc1 with hb | hc
        · exact Or.inl (by rw [hb, h'])
        · exact Or.inr ⟨a0, List.mem_cons_self _ _, by rw [← h', hc]⟩
      · exact Or.inr ⟨a, List.mem_cons_of_mem _ ha, heq⟩
    · intro s0 hb
      obtain ⟨s, hs, hle⟩ := (ih (updateBest b (a0 :: r))).2.1 s1 hs1
      rw [List.foldl_cons]
      exact ⟨s, hs, le_trans hle (hmono1 s0 hb)⟩
    · intro a ha
      rw [List.foldl_cons]
      rcases List.mem_cons.mp ha with h' | h'
      · obtain ⟨s, hs, hle⟩ := (ih (updateBest b (a0 :: r))).2.1 s1 hs1
        exact ⟨s, hs, le_trans hle hlen1⟩
      · exact (ih (updateBest b (a0 :: r))).2.2 a h'

theorem gosStep_some (i : Nat) (dp : List (Option ScheduleT)) (ms : List MatchT)
    (st : List Stadium) (b : Option ScheduleT) (k : Nat) (s : ScheduleT)
    (h : gosStep i dp ms st b k = some s) :
    b = some s ∨ GosCand i dp ms st k s := by
  rw [gosStep] at h
  by_cases h1 : i + k > ms.length
  · rw [if_pos h1] at h
    exact Or.inl h
  · rw [if_neg h1] at h
    simp only [] at h
    by_cases h2 : generate_assignments ((ms.drop i).take k) st = []
    · rw [if_pos h2] at h
      exact Or.inl h
    · rw [if_neg h2] at h
      cases hdp : dp.getD (i + k) none with
      | none =>
        rw [hdp] at h
        exact Or.inl h
      | some r =>
        rw [hdp] at h
        dsimp only at h
        rcases (ubFold_spec r (generate_assignments ((ms.drop i).take k) st) b).1 s h
          with h' | ⟨a, ha, heq⟩
        · exact Or.inl h'
        · exact Or.inr ⟨by omega, a, ha, r, hdp, heq⟩

theorem gosStep_mono (i : Nat) (dp : List (Option ScheduleT)) (ms : List MatchT)
    (st : List Stadium) (b : Option ScheduleT) (k : Nat) (s0 : ScheduleT)
    (hb : b = some s0) :
    ∃ s, gosStep i dp ms st b k = some s ∧ s.length ≤ s0.length := by
  rw [gosStep]
  by_cases h1 : i + k > ms.length
  · rw [if_pos h1]
    exact ⟨s0, hb, le_refl _⟩
  · rw [if_neg h1]
    simp only []
    by_cases h2 : generate_assignments ((ms.drop i).take k) st = []
    · rw [if_pos h2]
      exact ⟨s0, hb, le_refl _⟩
    · rw [if_neg h2]
      cases hdp : dp.getD (i + k) none with
      | none => exact ⟨s0, hb, le_refl _⟩
      | some r =>
        dsimp only
        exact (ubFold_spec r _ b).2.1 s0 hb

theorem gosStep_cand (i : Nat) (dp : List (Option ScheduleT)) (ms : List MatchT)
    (st : List Stadium) (b : Option ScheduleT) (k : Nat) (s : ScheduleT)
    (hc : GosCand i dp ms st k s) :
    ∃ s', gosStep i dp ms st b k = some s' ∧ s'.length ≤ s.length := by
  obtain ⟨hik, a, ha, r, hdp, heq⟩ := hc
  rw [gosStep, if_neg (by omega)]
  simp only []
  rw [if_neg (List.ne_nil_of_mem ha), hdp]
  dsimp only
  obtain ⟨s', hs', hle⟩ := (ubFold_spec r _ b).2.2 a ha
  refine ⟨s', hs', ?_⟩
  rw [heq, List.length_cons]
  exact hle

theorem gosFold_some (i : Nat) (dp : List (Option ScheduleT)) (ms : List MatchT)
    (st : List Stadium) :
    ∀ (K : List Nat) (b : Option ScheduleT) (s : ScheduleT),
      K.foldl (gosStep i dp ms st) b = some s →
      b = some s ∨ ∃ k ∈ K, GosCand i dp ms st k s := by
  intro K
  induction K with
  | nil =>
    intro b s h
    exact Or.inl h
  | cons k0 K ih =>
    intro b s h
    rw [List.foldl_cons] at h
    rcases ih _ s h with h' | ⟨k, hk, hc⟩
    · rcases gosStep_some i dp ms st b k0 s h' with h'' | hc
      · exact Or.inl h''
      · exact Or.inr ⟨k0, List.mem_cons_self _ _, hc⟩
    · exact Or.inr ⟨k, List.mem_cons_of_mem _ hk, hc⟩

theorem gosFold_mono (i : Nat) (dp : List (Option ScheduleT)) (ms : List MatchT)
    (st : List Stadium) :
    ∀ (K : List Nat) (b : Option ScheduleT) (s0 : ScheduleT), b = some s0 →
      ∃ s, K.foldl (gosStep i dp ms st) b = some s ∧ s.length ≤ s0.length := by
  intro K
  induction K with
  | nil =>
    intro b s0 hb
    exact ⟨s0, hb, le_refl _⟩
  | cons k0 K ih =>
    intro b s0 hb
    obtain ⟨s1, hs1, hle1⟩ := gosStep_mono i dp ms st b k0 s0 hb
    obtain ⟨s, hs, hle⟩ := ih _ s1 hs1
    rw [List.foldl_cons]
    exact ⟨s, hs, le_trans hle hle1⟩

theorem gosFold_cand (i : Nat) (dp : List (Option ScheduleT)) (ms : List MatchT)
    (st : List Stadium) :
    ∀ (K : List Nat) (b : Option ScheduleT) (k : Nat), k ∈ K →
      ∀ s, GosCand i dp ms st k s →
      ∃ s', K.foldl (gosStep i dp ms st) b = some s' ∧ s'.length ≤ s.length := by
  intro K
  induction K with
  | nil =>
    intro b k hk
    cases hk
  | cons k0 K ih =>
    intro b k hk s hc
    rw [List.foldl_cons]
    rcases List.mem_cons.mp hk with h' | h'
    · subst h'
      obtain ⟨s1, hs1, hle1⟩ := gosStep_cand i dp ms st b k s hc
      obtain ⟨s', hs', hle'⟩ := gosFold_mono i dp ms st K _ s1 hs1
      exact ⟨s', hs', le_trans hle' hle1⟩
    · exact ih _ k h' s hc

/-! ### Scheduler: the dp recurrence -/

theorem minDays_zero (v : Nat) (hv : 1 ≤ v) : minDays 0 v = 0 := by
  rw [minDays]
  exact Nat.div_eq_of_lt (by omega)

theorem minDays_step (r v : Nat) (hr : 1 ≤ r) (hv : 1 ≤ v) :
    minDays r v = 1 + minDays (r - min v r) v := by
  rcases le_or_lt r v with hrv | hvr
  · have h1 : 1 * v ≤ r + v - 1 := by omega
    have h2 : r + v - 1 < (1 + 1) * v := by omega
    rw [min_eq_right hrv, Nat.sub_self, minDays_zero v hv, minDays,
      Nat.div_eq_of_lt_le h1 h2]
  · rw [min_eq_left (le_of_lt hvr), minDays, minDays,
      show r + v - 1 = (r - v + v - 1) + v from by omega,
      Nat.add_div_right _ (by omega)]
    omega

theorem minDays_le_step (r v k : Nat) (hv : 1 ≤ v) (hk : k ≤ v) :
    minDays r v ≤ 1 + minDays (r - k) v := by
  rw [minDays, minDays]
  calc (r + v - 1) / v ≤ ((r - k + v - 1) + v) / v :=
        Nat.div_le_div_right (by omega)
    _ = (r - k + v - 1) / v + 1 := Nat.add_div_right _ (by omega)
    _ ≤ 1 + (r - k + v - 1) / v := by omega

theorem dpTable_getD (ms : List MatchT) (st : List Stadium) (i j : Nat)
    (hij : i < j) (hj : j ≤ ms.length) :
    (dpTable ms st i).getD j none = dpVal ms st j := by
  have hlen : ((List.range (ms.length + 1)).map
      (fun j => if i < j then dpVal ms st j else none)).length = ms.length + 1 := by
    rw [List.length_map, List.length_range]
  rw [dpTable, List.getD_eq_getElem _ _ (by rw [hlen]; omega),
    List.getElem_map, List.getElem_range, if_pos hij]

theorem dpVal_at_length (ms : List MatchT) (st : List Stadium) :
    dpVal ms st ms.length = some [] := by
  rw [dpVal, if_pos (le_refl _), if_pos rfl]

theorem dpVal_lt (ms : List MatchT) (st : List Stadium) (i : Nat)
    (hi : i < ms.length) :
    dpVal ms st i = get_optimizing_solution i (dpTable ms st i) ms st := by
  rw [dpVal, if_neg (by omega)]
  rfl

theorem dpVal_spec (ms : List MatchT) (v : Nat) (hv : 1 ≤ v) :
    ∀ (m i : Nat), i ≤ ms.length → ms.length - i ≤ m →
      ∃ s, dpVal ms (mkStadiums v) i = some s ∧
        s.length = minDays (ms.length - i) v ∧
        s.flatMap (fun d => d.map Prod.snd) = ms.drop i ∧
        ∀ d ∈ s, (d.map Prod.fst).Nodup ∧ ∀ p ∈ d, p.1 ∈ stadiumIds v := by
  intro m
  induction m with
  | zero =>
    intro i hi hm
    have hieq : i = ms.length := by omega
    subst hieq
    refine ⟨[], dpVal_at_length ms _, ?_, ?_, by intro d hd; cases hd⟩
    · rw [Nat.sub_self, minDays_zero v hv, List.length_nil]
    · rw [List.drop_length]
      rfl
  | succ m ih =>
    intro i hi hm
    by_cases hin : i < ms.length
    case neg =>
      have hieq : i = ms.length := by omega
      subst hieq
      refine ⟨[], dpVal_at_length ms _, ?_, ?_, by intro d hd; cases hd⟩
      · rw [Nat.sub_self, minDays_zero v hv, List.length_nil]
      · rw [List.drop_length]
        rfl
    case pos =>
    obtain ⟨r0, hr0, hr0len, hr0flat, hr0days⟩ :=
      ih (i + min v (ms.length - i)) (by omega) (by omega)
    have hblock : ((ms.drop i).take (min v (ms.length - i))).length
        = min v (ms.length - i) := by
      rw [List.length_take, List.length_drop]
      omega
    have hgne : generate_assignments
        ((ms.drop i).take (min v (ms.length - i))) (mkStadiums v) ≠ [] := by
      intro h
      have h2 := (generate_assignments_empty_iff _ _).mp h
      rw [hblock, mkStadiums_length] at h2
      omega
    obtain ⟨a0, ha0⟩ := List.exists_mem_of_ne_nil _ hgne
    have hcand0 : GosCand i (dpTable ms (mkStadiums v) i) ms (mkStadiums v)
        (min v (ms.length - i)) (a0 :: r0) := by
      refine ⟨by omega, a0, ha0, r0, ?_, rfl⟩
      rw [dpTable_getD ms (mkStadiums v) i _ (by omega) (by omega), hr0]
    have hgos : dpVal ms (mkStadiums v) i =
        (List.range' 1 (mkStadiums v).length).foldl
          (gosStep i (dpTable ms (mkStadiums v) i) ms (mkStadiums v)) none := by
      rw [dpVal_lt ms (mkStadiums v) i hin, get_optimizing_solution]
    obtain ⟨s, hs, hsle⟩ := gosFold_cand i (dpTable ms (mkStadiums v) i) ms
      (mkStadiums v) (List.range' 1 (mkStadiums v).length) none
      (min v (ms.length - i))
      (by rw [List.mem_range'_1, mkStadiums_length]; omega) (a0 :: r0) hcand0
    rcases gosFold_some i (dpTable ms (mkStadiums v) i) ms (mkStadiums v) _ none s hs
      with hnone | ⟨k, hkK, hkc⟩
    · cases hnone
    obtain ⟨hik, a, ha, r, hdp, hseq⟩ := hkc
    rw [List.mem_range'_1, mkStadiums_length] at hkK
    have hdp' : dpVal ms (mkStadiums v) (i + k) = some r := by
      have h2 := dpTable_getD ms (mkStadiums v) i (i + k) (by omega) (by omega)
      rw [hdp] at h2
      exact h2.symm
    obtain ⟨r', hr', hrlen, hrflat, hrdays⟩ := ih (i + k) (by omega) (by omega)
    rw [hdp'] at hr'
    injection hr' with hr'
    subst hr'
    obtain ⟨hasnd, hafst, hain⟩ := generate_assignments_day ((ms.drop i).take k)
      (mkStadiums v) (mkStadiums_ids_nodup v) a ha
    have hstep := minDays_step (ms.length - i) v (by omega) hv
    have hsub1 : ms.length - i - min v (ms.length - i)
        = ms.length - (i + min v (ms.length - i)) := by omega
    have hsub2 : ms.length - i - k = ms.length - (i + k) := by omega
    have hslen : s.length = minDays (ms.length - i) v := by
      have hlow : minDays (ms.length - i) v ≤ s.length := by
        have h3 := minDays_le_step (ms.length - i) v k hv (by omega)
        rw [hsub2] at h3
        rw [hseq, List.length_cons, hrlen]
        omega
      have hhigh : s.length ≤ minDays (ms.length - i) v := by
        have h4 : (a0 :: r0).length = minDays (ms.length - i) v := by
          rw [List.length_cons, hr0len, hstep, hsub1]
          omega
        omega
      omega
    refine ⟨s, by rw [hgos]; exact hs, hslen, ?_, ?_⟩
    · rw [hseq, List.flatMap_cons, hasnd, hrflat]
      have h5 : ms.drop (i + k) = (ms.drop i).drop k := by
        rw [List.drop_drop]
      rw [h5, List.take_append_drop]
    · intro d hd
      rw [hseq] at hd
      rcases List.mem_cons.mp hd with h' | h'
      · subst h'
        refine ⟨hafst, ?_⟩
        intro p hp
        rw [stadiumIds]
        exact hain p hp
      · exact hrdays d h'

/-! ### Scheduler: the fill loop of `schedule_matches` computes `dpVal` -/

theorem dpVal_no_stadiums (ms : List MatchT) (st : List Stadium) (hst : st = [])
    (i : Nat) (hi : i < ms.length) : dpVal ms st i = none := by
  subst hst
  rw [dpVal_lt ms [] i hi, get_optimizing_solution]
  rfl

theorem dpFilled_succ_eq_dpTable (ms : List MatchT) (st : List Stadium) (j : Nat) :
    dpFilled ms st (j + 1) = dpTable ms st j := by
  rw [dpFilled, dpTable]
  apply List.map_congr_left
  intro idx _
  by_cases h : j + 1 ≤ idx
  · rw [if_pos h, if_pos (show j < idx from h)]
  · rw [if_neg h, if_neg (show ¬ j < idx from h)]

theorem dpTable_set (ms : List MatchT) (st : List Stadium) (j : Nat)
    (_hj : j ≤ ms.length) :
    (dpTable ms st j).set j (dpVal ms st j) = dpFilled ms st j := by
  rw [dpTable, dpFilled]
  apply List.ext_getElem
  · rw [List.length_set, List.length_map, List.length_map]
  · intro idx h1 h2
    rw [List.getElem_set]
    by_cases h : j = idx
    · subst h
      rw [if_pos rfl, List.getElem_map, List.getElem_range, if_pos (le_refl j)]
    · rw [if_neg h, List.getElem_map, List.getElem_range,
        List.getElem_map, List.getElem_range]
      by_cases h3 : j + 1 ≤ idx
      · rw [if_pos (by omega : j < idx), if_pos (by omega : j ≤ idx)]
      · rw [if_neg (by omega : ¬ j < idx), if_neg (by omega : ¬ j ≤ idx)]

theorem dpFold_eq (ms : List MatchT) (st : List Stadium) :
    ∀ j, j ≤ ms.length →
      (List.range j).reverse.foldl
        (fun dp i => dp.set i (get_optimizing_solution i dp ms st))
        (dpFilled ms st j)
      = dpFilled ms st 0 := by
  intro j
  induction j with
  | zero => intro _; rfl
  | succ j ih =>
    intro hj
    rw [List.range_succ, List.reverse_append, List.reverse_singleton,
      List.singleton_append, List.foldl_cons]
    have h1 : (dpFilled ms st (j + 1)).set j
        (get_optimizing_solution j (dpFilled ms st (j + 1)) ms st)
        = dpFilled ms st j := by
      rw [dpFilled_succ_eq_dpTable, ← dpVal_lt ms st j (by omega)]
      exact dpTable_set ms st j (by omega)
    rw [h1]
    exact ih (by omega)

theorem schedule_matches_eq_dpVal (ms : List MatchT) (v : Nat) :
    schedule_matches ms v = dpVal ms (mkStadiums v) 0 := by
  rw [schedule_matches]
  have h0 : (List.range (ms.length + 1)).map
      (fun j => if j = ms.length then some [] else none)
      = dpFilled ms (mkStadiums v) ms.length := by
    rw [dpFilled]
    apply List.map_congr_left
    intro idx hidx
    rw [List.mem_range] at hidx
    by_cases h : idx = ms.length
    · subst h
      rw [if_pos rfl, if_pos (le_refl _), dpVal_at_length]
    · rw [if_neg h, if_neg (by omega)]
  rw [h0, dpFold_eq ms (mkStadiums v) ms.length (le_refl _), dpFilled,
    List.getD_eq_getElem _ _ (by rw [List.length_map, List.length_range]; omega),
    List.getElem_map, List.getElem_range, if_pos (Nat.le_refl 0)]

theorem sum_map_le_length_mul {α : Type} (l : List α) (f : α → Nat) (c : Nat)
    (h : ∀ x ∈ l, f x ≤ c) : (l.map f).sum ≤ l.length * c := by
  induction l with
  | nil => simp
  | cons x xs ih =>
    rw [List.map_cons, List.sum_cons, List.length_cons]
    have h1 := h x (List.mem_cons_self _ _)
    have h2 := ih (fun y hy => h y (List.mem_cons_of_mem _ hy))
    calc f x + (xs.map f).sum ≤ c + xs.length * c := by omega
      _ = (xs.length + 1) * c := by ring

/-! ### The claims about the scheduler -/

/-- C5: `schedule_matches` returns the infeasible marker `none` exactly
when there are no venues and at least one match; with at least one venue
every match list is feasible, and the empty match list yields the
zero-day schedule for every venue count. -/
theorem C5_theorem (ms : List MatchT) (v : Nat) :
    (schedule_matches ms v = none ↔ v = 0 ∧ ms ≠ []) ∧
    schedule_matches [] v = some [] := by
  have hempty : schedule_matches [] v = some [] := by
    rw [schedule_matches_eq_dpVal]
    exact dpVal_at_length [] (mkStadiums v)
  refine ⟨⟨?_, ?_⟩, hempty⟩
  · intro hn
    rcases Nat.eq_zero_or_pos v with hv | hv
    · subst hv
      refine ⟨rfl, ?_⟩
      intro hms
      subst hms
      rw [hempty] at hn
      cases hn
    · obtain ⟨s, hs, _, _, _⟩ :=
        dpVal_spec ms v hv ms.length 0 (Nat.zero_le _) (by omega)
      rw [schedule_matches_eq_dpVal, hs] at hn
      cases hn
  · rintro ⟨hv, hms⟩
    subst hv
    rw [schedule_matches_eq_dpVal]
    apply dpVal_no_stadiums ms (mkStadiums 0) rfl 0
    cases ms with
    | nil => exact absurd rfl hms
    | cons a l => simp

/-- C3: whenever `schedule_matches` returns a schedule, the matches of
all its days together are exactly the input list as a multiset, and
within each day the venues are pairwise distinct. -/
theorem C3_theorem (ms : List MatchT) (v : Nat) (s : ScheduleT)
    (h : schedule_matches ms v = some s) :
    (s.flatMap (fun d => d.map Prod.snd)).Perm ms ∧
    ∀ d ∈ s, (d.map Prod.fst).Nodup := by
  rcases Nat.eq_zero_or_pos v with hv | hv
  · subst hv
    rcases ms with _ | ⟨m0, ms'⟩
    · have h0 : dpVal [] (mkStadiums 0) 0 = some [] :=
        dpVal_at_length [] (mkStadiums 0)
      rw [schedule_matches_eq_dpVal, h0] at h
      injection h with h
      subst h
      exact ⟨List.Perm.nil, fun d hd => absurd hd (List.not_mem_nil d)⟩
    · rw [schedule_matches_eq_dpVal,
        dpVal_no_stadiums (m0 :: ms') (mkStadiums 0) rfl 0 (by simp)] at h
      cases h
  · obtain ⟨s', hs', _, hflat, hdays⟩ :=
      dpVal_spec ms v hv ms.length 0 (Nat.zero_le _) (by omega)
    rw [schedule_matches_eq_dpVal, hs'] at h
    injection h with h
    subst h
    rw [List.drop_zero] at hflat
    exact ⟨by rw [hflat], fun d hd => (hdays d hd).1⟩

/-- Witness for C3 on the three-match, one-stadium example. -/
theorem C3_witness :
    schedule_matches [(1, 2), (3, 4), (5, 6)] 1 =
      some [[("s1", (1, 2))], [("s1", (3, 4))], [("s1", (5, 6))]] ∧
    (([[("s1", (1, 2))], [("s1", (3, 4))], [("s1", (5, 6))]] : ScheduleT).flatMap
        (fun d => d.map Prod.snd)).Perm [(1, 2), (3, 4), (5, 6)] ∧
    ∀ d ∈ ([[("s1", (1, 2))], [("s1", (3, 4))], [("s1", (5, 6))]] : ScheduleT),
      (d.map Prod.fst).Nodup := by
  have h : schedule_matches [(1, 2), (3, 4), (5, 6)] 1 =
      some [[("s1", (1, 2))], [("s1", (3, 4))], [("s1", (5, 6))]] := by decide
  obtain ⟨h1, h2⟩ := C3_theorem [(1, 2), (3, 4), (5, 6)] 1 _ h
  exact ⟨h, h1, h2⟩

/-- C6 as literally stated fails on the empty match list: its length is
at most the venue count, yet `schedule_matches` returns the zero-day
schedule, not a single (empty) DaySchedule. -/
theorem C6_counterexample :
    ([] : List MatchT).length ≤ 1 ∧ schedule_matches [] 1 = some [] ∧
    ¬ ∃ d, schedule_matches [] 1 = some [d] := by
  refine ⟨by decide, by decide, ?_⟩
  rintro ⟨d, hd⟩
  have h0 : schedule_matches [] 1 = some [] := by decide
  rw [h0] at hd
  injection hd with hd
  exact List.noConfusion hd

/-- C6 (amended: the match list must be non-empty — on the empty list
the result is the zero-day schedule): when `1 ≤ len(ms) ≤ venue_count`,
`schedule_matches` returns exactly one DaySchedule assigning every
input match, in order, to a distinct venue. -/
theorem C6_theorem (ms : List MatchT) (v : Nat) (hne : ms ≠ [])
    (hlen : ms.length ≤ v) :
    ∃ d, schedule_matches ms v = some [d] ∧
      d.map Prod.snd = ms ∧ (d.map Prod.fst).Nodup := by
  have hn1 : 1 ≤ ms.length := by
    cases ms with
    | nil => exact absurd rfl hne
    | cons a l => simp
  have hv : 1 ≤ v := le_trans hn1 hlen
  obtain ⟨s, hs, hslen, hflat, hdays⟩ :=
    dpVal_spec ms v hv ms.length 0 (Nat.zero_le _) (by omega)
  rw [Nat.sub_zero] at hslen
  have h1 : minDays ms.length v = 1 := by
    have hlo : 1 * v ≤ ms.length + v - 1 := by omega
    have hhi : ms.length + v - 1 < (1 + 1) * v := by omega
    rw [minDays, Nat.div_eq_of_lt_le hlo hhi]
  rw [h1] at hslen
  rcases s with _ | ⟨d, s'⟩
  · exact absurd hslen (by decide)
  rcases s' with _ | ⟨d2, s''⟩
  case cons.cons =>
    rw [List.length_cons, List.length_cons] at hslen
    omega
  rw [List.drop_zero, List.flatMap_cons, List.flatMap_nil, List.append_nil] at hflat
  refine ⟨d, ?_, hflat, (hdays d (List.mem_cons_self _ _)).1⟩
  rw [schedule_matches_eq_dpVal, hs]

/-- Witness for the amended C6 on a single match and a single venue. -/
theorem C6_witness :
    (([(1, 2)] : List MatchT) ≠ [] ∧ ([(1, 2)] : List MatchT).length ≤ 1) ∧
    ∃ d, schedule_matches [(1, 2)] 1 = some [d] ∧
      d.map Prod.snd = [(1, 2)] ∧ (d.map Prod.fst).Nodup :=
  ⟨⟨by simp, by decide⟩, C6_theorem [(1, 2)] 1 (by simp) (by decide)⟩

/-- C1: with at least one venue, the schedule `schedule_matches`
returns uses the fewest possible days: no valid assignment of the same
matches to the generated venues — every match exactly once, pairwise
distinct venues within a day — uses fewer DaySchedules; in particular
the six round-robin matchups on two venues take exactly three days. -/
theorem C1_theorem (ms : List MatchT) (v : Nat) (hv : 1 ≤ v) :
    (∃ s, schedule_matches ms v = some s ∧
      ∀ alt, ValidSchedule ms (stadiumIds v) alt → s.length ≤ alt.length) ∧
    (schedule_matches [(0, 1), (0, 2), (0, 3), (1, 2), (1, 3), (2, 3)] 2).map
      List.length = some 3 := by
  refine ⟨?_, by decide⟩
  obtain ⟨s, hs, hslen, _, _⟩ :=
    dpVal_spec ms v hv ms.length 0 (Nat.zero_le _) (by omega)
  rw [Nat.sub_zero] at hslen
  refine ⟨s, by rw [schedule_matches_eq_dpVal, hs], ?_⟩
  intro alt halt
  obtain ⟨hperm, hdays⟩ := halt
  have hdaylen : ∀ d ∈ alt, d.length ≤ v := by
    intro d hd
    obtain ⟨hnd, hsub⟩ := hdays d hd
    have h1 : List.Subperm (d.map Prod.fst) (stadiumIds v) :=
      hnd.subperm (fun x hx => by
        obtain ⟨p, hp, hpx⟩ := List.mem_map.mp hx
        rw [← hpx]
        exact hsub p hp)
    have h2 := h1.length_le
    rw [List.length_map, stadiumIds_length] at h2
    exact h2
  have htot : ms.length ≤ alt.length * v := by
    have h3 : (alt.flatMap (fun d => d.map Prod.snd)).length = ms.length :=
      hperm.length_eq
    rw [List.flatMap_def, List.length_flatten, List.map_map] at h3
    have h4 : ∀ d ∈ alt,
        (List.length ∘ fun d : DaySchedule => d.map Prod.snd) d ≤ v := by
      intro d hd
      simp only [Function.comp_apply, List.length_map]
      exact hdaylen d hd
    calc ms.length
        = (alt.map (List.length ∘ fun d : DaySchedule => d.map Prod.snd)).sum :=
          h3.symm
      _ ≤ alt.length * v := sum_map_le_length_mul alt _ v h4
  rw [hslen, minDays]
  have h5 : ms.length + v - 1 ≤ alt.length * v + (v - 1) := by omega
  calc (ms.length + v - 1) / v ≤ (alt.length * v + (v - 1)) / v :=
        Nat.div_le_div_right h5
    _ ≤ alt.length := by
        rw [Nat.add_comm, Nat.add_mul_div_right _ _ (by omega : 0 < v),
          Nat.div_eq_of_lt (by omega)]
        omega

/-- Witness for C1 on a single match and a single venue. -/
theorem C1_witness :
    1 ≤ 1 ∧
    ((∃ s, schedule_matches [(1, 2)] 1 = some s ∧
      ∀ alt, ValidSchedule [(1, 2)] (stadiumIds 1) alt → s.length ≤ alt.length) ∧
    (schedule_matches [(0, 1), (0, 2), (0, 3), (1, 2), (1, 3), (2, 3)] 2).map
      List.length = some 3) :=
  ⟨by decide, C1_theorem [(1, 2)] 1 (by decide)⟩

/-- C4 (amended: the pairing clause additionally requires the venue ids
to be pairwise distinct, as they are for the stadiums
`schedule_matches` builds — with duplicated ids the dict collapses
entries): emptiness holds iff the block exceeds the venues, the count
is the falling factorial `P(len(venues), len(block))`, and for distinct
ids each returned day pairs the block, in order, with one
k-permutation of the venues. -/
theorem C4_theorem (block : List MatchT) (stadiums : List Stadium) :
    (generate_assignments block stadiums = [] ↔
      stadiums.length < block.length) ∧
    (block.length ≤ stadiums.length →
      (generate_assignments block stadiums).length
        = stadiums.length.descFactorial block.length) ∧
    ((stadiums.map Stadium.id).Nodup →
      ∀ d ∈ generate_assignments block stadiums,
        ∃ perm ∈ k_permutations stadiums block.length,
          d = (perm.map Stadium.id).zip block) :=
  ⟨generate_assignments_empty_iff block stadiums,
    generate_assignments_length block stadiums,
    fun hnd d hd => generate_assignments_mem block stadiums hnd d hd⟩

/-- C4 as literally stated fails for venue sequences with duplicated
ids: with two venues both carrying id "s", the two matches of the block
collapse into a single dict entry, so the returned DaySchedule fails to
pair each match of the block with a venue (the first match is lost). -/
theorem C4_counterexample :
    (([(1, 2), (3, 4)] : List MatchT).length
      ≤ ([⟨"s", "A"⟩, ⟨"s", "B"⟩] : List Stadium).length) ∧
    ∃ d ∈ generate_assignments [(1, 2), (3, 4)] [⟨"s", "A"⟩, ⟨"s", "B"⟩],
      ∀ p ∈ d, p.2 ≠ ((1, 2) : MatchT) := by
  refine ⟨by decide, [("s", (3, 4))], by decide, by decide⟩

/-- Witness for the amended C4: two matches on the three generated
stadiums give `P(3, 2) = 6` assignments. -/
theorem C4_witness :
    (([(1, 2), (3, 4)] : List MatchT).length ≤ (mkStadiums 3).length) ∧
    ((mkStadiums 3).map Stadium.id).Nodup ∧
    (generate_assignments [(1, 2), (3, 4)] (mkStadiums 3)).length
      = (mkStadiums 3).length.descFactorial
          ([(1, 2), (3, 4)] : List MatchT).length :=
  ⟨by decide, by decide,
    (C4_theorem [(1, 2), (3, 4)] (mkStadiums 3)).2.1 (by decide)⟩

/-- Witness for C10 on the one-vertex list `["a"]` with a table keyed
only by listed vertices. -/
theorem C10_witness :
    ((["a"] : List String) ≠ []) ∧
    (∀ p ∈ ([(("a", "a"), (1 : ℚ))] : WTable),
      p.1.1 ∈ (["a"] : List String) ∧ p.1.2 ∈ (["a"] : List String)) ∧
    (prim_mst [] [] = none ∧ ∃ res, prim_mst ["a"] [(("a", "a"), 1)] = some res) := by
  have hk : ∀ p ∈ ([(("a", "a"), (1 : ℚ))] : WTable),
      p.1.1 ∈ (["a"] : List String) ∧ p.1.2 ∈ (["a"] : List String) := by
    intro p hp
    rw [List.mem_singleton] at hp
    rw [hp]
    exact ⟨List.mem_singleton.mpr rfl, List.mem_singleton.mpr rfl⟩
  exact ⟨by simp, hk, C10_theorem [] ["a"] [(("a", "a"), 1)] (by simp) hk⟩

end SchedPrim
